import Mathlib

/-!
Verification of the Monte Carlo Tree Search engine in MCTS.py.

The Python module is shallowly embedded as follows.

* Python machine integers (visit and value counters) become Lean Int.
* Python float arithmetic is embedded into an arbitrary linear ordered
  field K; the two math-library functions the code uses, math.sqrt and
  math.log, are supplied by a FloatOps record.  Theorems about the real
  UCB formula instantiate K with the real numbers and FloatOps with
  Real.sqrt and Real.log; executable witnesses instantiate K with the
  rationals.
* The State capability set (the AbstractState class) becomes a Game
  record of functions.  The hidden global random source consumed by
  random_action is made explicit: random_action receives the index of
  the call in the whole call sequence of the search, so an arbitrary
  Game value covers every possible behaviour of the randomness source.
* A Node owns its children; the Python parent back-pointer is
  represented by the path of child indices from the root, and
  backpropogate walks that path (the unbroken parent chain) from the
  expanded node up to the root.
* Python exceptions that the code can raise (ZeroDivisionError from
  integer division by zero, ValueError from math.log or math.sqrt on an
  argument outside the domain, IndexError from indexing an empty list)
  are modelled by an error monad.  The unbounded while loops of select
  and simulate receive fuel; running out of fuel is a model artifact
  reported as fuelOut, distinct from every Python exception.
* The debug printing of MonteCarloTreeSearch emits records of the
  numbers it reads instead of formatted strings; the emitted records are
  returned next to the search result.
-/

namespace MCTSVerify

variable {σ : Type} {K : Type} [LinearOrderedField K]

/-- The State capability set of MCTS.py (class AbstractState): termination
test, random action with an exclusion list, reward attribution and
exhaustion test.  The first argument of random_action is the index of the
call in the call sequence of the search, modelling the random source. -/
structure Game (σ : Type) where
  terminated : σ → Bool
  random_action : Nat → σ → List Int → Int × σ
  update_value : σ → σ → Int
  state_exhausted : σ → Nat → Bool

/-- The two math-library functions used by calc_UCB. -/
structure FloatOps (K : Type) where
  sqrt : K → K
  log : K → K

/-- The sqrt and log of the Python math module, on the reals. -/
noncomputable def realFloatOps : FloatOps ℝ :=
  ⟨Real.sqrt, Real.log⟩

/-- The scalar fields of a Node of MCTS.py: state, visits, value, ucb
scratch score and the list of actions already expanded. -/
structure NodeCore (σ : Type) (K : Type) where
  state : σ
  visits : Int
  value : Int
  ucb : K
  actions_taken : List Int
deriving DecidableEq

/-- A vertex of the search tree (class Node of MCTS.py).  Children are
owned and kept in insertion (expansion) order; the parent back-pointer is
represented by the path from the root. -/
inductive Node (σ : Type) (K : Type) where
  | mk (core : NodeCore σ K) (children : List (Node σ K))

/-- Scalar fields of a node. -/
def Node.core : Node σ K → NodeCore σ K
  | .mk c _ => c

/-- Ordered child list of a node. -/
def Node.children : Node σ K → List (Node σ K)
  | .mk _ cs => cs

/-- The state field of a node. -/
def Node.state (n : Node σ K) : σ := n.core.state

/-- The visits counter of a node. -/
def Node.visits (n : Node σ K) : Int := n.core.visits

/-- The value accumulator of a node. -/
def Node.value (n : Node σ K) : Int := n.core.value

/-- The scratch ucb field of a node. -/
def Node.ucb (n : Node σ K) : K := n.core.ucb

/-- The actions_taken list of a node. -/
def Node.actions_taken (n : Node σ K) : List Int := n.core.actions_taken

/-- Overwrite the scratch ucb field (the assignment child.ucb = ... in
select). -/
def Node.setUcb (u : K) : Node σ K → Node σ K
  | .mk c cs => .mk { c with ucb := u } cs

/-- Replace the child list of a node. -/
def Node.setChildren (cs : List (Node σ K)) : Node σ K → Node σ K
  | .mk c _ => .mk c cs

/-- A freshly constructed Node (Node.__init__): no children, no actions
taken, zero visits, zero value, zero ucb. -/
def Node.init (s : σ) : Node σ K := .mk ⟨s, 0, 0, 0, []⟩ []

/-- Python exceptions the embedded code can raise. -/
inductive PyError where
  | zeroDivisionError
  | valueError
  | indexError
deriving DecidableEq, Repr

/-- Abnormal outcomes of a run: a propagating Python exception, or fuel
exhaustion of the model of an unbounded loop (a model artifact which is
not a Python error). -/
inductive Stuck where
  | py (e : PyError)
  | fuelOut
deriving DecidableEq, Repr

/-- UCB formula of calc_UCB: exploitation child.value / child.visits plus
exploration exploration_param * sqrt(log(parent.visits) / child.visits).
In the Python signature exploration_param defaults to math.sqrt(2); every
caller in MCTS.py omits it, so call sites below pass fo.sqrt 2. -/
def calc_UCB (fo : FloatOps K) (child parent : Node σ K)
    (exploration_param : K) : K :=
  (child.value : K) / (child.visits : K) +
    exploration_param * fo.sqrt (fo.log (parent.visits : K) / (child.visits : K))

/-- Evaluation of calc_UCB with Python error semantics, in evaluation
order: the integer division child.value / child.visits raises
ZeroDivisionError when child.visits is zero; math.log raises ValueError
when parent.visits is not positive; math.sqrt raises ValueError when its
argument is negative; otherwise the value of calc_UCB is returned. -/
def calc_UCB_run (fo : FloatOps K) (child parent : Node σ K)
    (exploration_param : K) : Except PyError K :=
  if child.visits = 0 then .error .zeroDivisionError
  else if parent.visits ≤ 0 then .error .valueError
  else if fo.log (parent.visits : K) / (child.visits : K) < 0 then .error .valueError
  else .ok (calc_UCB fo child parent exploration_param)

/-- Functional update of one list position (in-place mutation of a child
slot in Python). Out-of-range indices leave the list unchanged. -/
def modifyIdx (f : α → α) : Nat → List α → List α
  | _, [] => []
  | 0, x :: xs => f x :: xs
  | i + 1, x :: xs => x :: modifyIdx f i xs

/-- Node reached from n by following a path of child indices (the chain
of parent links read backwards). -/
def getAt : Node σ K → List Nat → Option (Node σ K)
  | n, [] => some n
  | n, i :: rest =>
    match n.children[i]? with
    | some c => getAt c rest
    | none => none

/-- Boolean path-prefix test. -/
def isPre : List Nat → List Nat → Bool
  | [], _ => true
  | _ :: _, [] => false
  | a :: as, b :: bs => a = b && isPre as bs

/-- The loop body of select over the remaining children (source lines
185-189): compute every child's ucb in order, remembering the index and
the freshly computed ucb of the best child seen so far, replacing it only
on a strictly greater score. -/
def scoreLoop (fo : FloatOps K) (parent : Node σ K) :
    List (Node σ K) → Nat → List (Node σ K) → Nat → K →
      Except PyError (List (Node σ K) × Nat)
  | [], _, acc, bestIdx, _ => .ok (acc.reverse, bestIdx)
  | c :: rest, idx, acc, bestIdx, bestUcb =>
    match calc_UCB_run fo c parent (fo.sqrt 2) with
    | .error e => .error e
    | .ok u =>
      if bestUcb < u then
        scoreLoop fo parent rest (idx + 1) (c.setUcb u :: acc) idx u
      else
        scoreLoop fo parent rest (idx + 1) (c.setUcb u :: acc) bestIdx bestUcb

/-- One pass of the child-scoring loop of select: max_ucb_child starts as
children[0], whose ucb is recomputed (through the aliased list cell)
before any comparison, so the loop starts after child 0 with best index 0
and best score the fresh ucb of child 0. Returns the children with
updated ucb fields and the index of the selected child. -/
def scoreChildren (fo : FloatOps K) (parent : Node σ K) :
    List (Node σ K) → Except PyError (List (Node σ K) × Nat)
  | [] => .ok ([], 0)
  | c :: rest =>
    match calc_UCB_run fo c parent (fo.sqrt 2) with
    | .error e => .error e
    | .ok u => scoreLoop fo parent rest 1 [c.setUcb u] 0 u

/-- The select phase: while the current node has at least one child and
its state reports state_exhausted(len(children)) true, recompute every
child's ucb and descend into the child with the greatest score; return
the current node (as the path from the root) as soon as either condition
fails.  fuel bounds the number of descents. -/
def select (g : Game σ) (fo : FloatOps K) :
    Nat → Node σ K → Except Stuck (Node σ K × List Nat)
  | 0, n =>
    if 0 < n.children.length ∧ g.state_exhausted n.state n.children.length = true then
      .error .fuelOut
    else .ok (n, [])
  | fuel + 1, n =>
    if 0 < n.children.length ∧ g.state_exhausted n.state n.children.length = true then
      match scoreChildren fo n n.children with
      | .error e => .error (.py e)
      | .ok (cs', j) =>
        match select g fo fuel (cs'.getD j n) with
        | .error e => .error e
        | .ok (c', p) => .ok (n.setChildren (modifyIdx (fun _ => c') j cs'), j :: p)
    else .ok (n, [])

/-- The expand phase, applied at the end of a path: a terminated node is
returned unchanged as its own expansion; otherwise random_action is
called with the node's actions_taken as exclusions, the action is
appended to actions_taken, and a fresh child node wrapping the successor
state is appended to children.  Returns the new tree, the path of the
expanded node, the expanded node's state and the next random-call
counter. -/
def expand (g : Game σ) (ctr : Nat) :
    List Nat → Node σ K → Node σ K × List Nat × σ × Nat
  | [], n =>
    if g.terminated n.state = true then (n, [], n.state, ctr)
    else
      let an := g.random_action ctr n.state n.actions_taken
      (Node.mk
        { n.core with actions_taken := n.actions_taken ++ [an.1] }
        (n.children ++ [Node.init an.2]),
       [n.children.length], an.2, ctr + 1)
  | i :: rest, n =>
    match n.children[i]? with
    | some c =>
      let r := expand g ctr rest c
      (n.setChildren (modifyIdx (fun _ => r.1) i n.children), i :: r.2.1, r.2.2.1, r.2.2.2)
    | none => (n, i :: rest, n.state, ctr)

/-- The simulate phase: from the expanded node's state, repeatedly take a
random action with no exclusions until the state is terminated.  fuel
bounds the number of steps. -/
def simulate (g : Game σ) : Nat → Nat → σ → Except Stuck (σ × Nat)
  | 0, ctr, s => if g.terminated s = true then .ok (s, ctr) else .error .fuelOut
  | fuel + 1, ctr, s =>
    if g.terminated s = true then .ok (s, ctr)
    else simulate g fuel (ctr + 1) (g.random_action ctr s []).2

/-- Update of every node strictly below the root on the parent chain of
the expanded node: value += update_value(sim_state) evaluated on the
node's own state, then visits += 1. -/
def backpropBelow (g : Game σ) (sim_state : σ) :
    List Nat → Node σ K → Node σ K
  | [], .mk core cs =>
    .mk { core with value := core.value + g.update_value core.state sim_state,
                    visits := core.visits + 1 } cs
  | i :: rest, .mk core cs =>
    .mk { core with value := core.value + g.update_value core.state sim_state,
                    visits := core.visits + 1 }
      (modifyIdx (backpropBelow g sim_state rest) i cs)

/-- The backpropogate phase, walking the parent chain of the expanded
node (given as its path from the root): every node strictly below the
root receives a value and a visits update, the root only visits += 1. -/
def backpropogate (g : Game σ) (sim_state : σ) :
    List Nat → Node σ K → Node σ K
  | [], .mk core cs => .mk { core with visits := core.visits + 1 } cs
  | i :: rest, .mk core cs =>
    .mk { core with visits := core.visits + 1 }
      (modifyIdx (backpropBelow g sim_state rest) i cs)

/-- The numbers the debug branch of MonteCarloTreeSearch reads and
prints: iteration index, visits, value and ucb of the root, and visits,
value and ucb of each root child. -/
structure DebugRecord (K : Type) where
  iteration : Nat
  rootVisits : Int
  rootValue : Int
  rootUcb : K
  childStats : List (Int × Int × K)

/-- Read the statistics the debug branch prints for a tree. -/
def debugRecord (i : Nat) (root : Node σ K) : DebugRecord K :=
  ⟨i, root.visits, root.value, root.ucb,
   root.children.map fun c => (c.visits, c.value, c.ucb)⟩

/-- One iteration of the search loop: selection, expansion, simulation,
backpropagation. -/
def mctsIteration (g : Game σ) (fo : FloatOps K) (selFuel simFuel : Nat)
    (ctr : Nat) (root : Node σ K) : Except Stuck (Node σ K × Nat) :=
  match select g fo selFuel root with
  | .error e => .error e
  | .ok (root₁, path) =>
    let ex := expand g ctr path root₁
    match simulate g simFuel ex.2.2.2 ex.2.2.1 with
    | .error e => .error e
    | .ok (sim_state, ctr') => .ok (backpropogate g sim_state ex.2.1 ex.1, ctr')

/-- The for loop of MonteCarloTreeSearch: k iterations remain, the debug
branch runs after the iteration body when the ascending iteration index
is below 10 and DEBUG is set. -/
def searchLoop (g : Game σ) (fo : FloatOps K) (selFuel simFuel iterations : Nat)
    (DEBUG : Bool) :
    Nat → Nat → Node σ K → List (DebugRecord K) →
      Except Stuck (Node σ K × Nat) × List (DebugRecord K)
  | 0, ctr, root, logs => (.ok (root, ctr), logs)
  | k + 1, ctr, root, logs =>
    match mctsIteration g fo selFuel simFuel ctr root with
    | .error e => (.error e, logs)
    | .ok (root', ctr') =>
      searchLoop g fo selFuel simFuel iterations DEBUG k ctr' root'
        (if iterations - (k + 1) < 10 && DEBUG then
          logs ++ [debugRecord (iterations - (k + 1)) root']
         else logs)

/-- Stable insertion step of the final sort: x is placed before the first
element with strictly fewer visits and after every element with at least
as many, which preserves insertion order among equal visit counts. -/
def insertByVisitsDesc (x : Node σ K) : List (Node σ K) → List (Node σ K)
  | [] => [x]
  | y :: ys =>
    if y.visits ≤ x.visits then x :: y :: ys
    else y :: insertByVisitsDesc x ys

/-- Model of Python sorted(children, key visits, reverse True): a stable
sort in descending visits order.  Python's Timsort is stable, and every
stable sort of the same total preorder produces the same list. -/
def sortedByVisitsDesc : List (Node σ K) → List (Node σ K)
  | [] => []
  | x :: xs => insertByVisitsDesc x (sortedByVisitsDesc xs)

/-- Index of the first child attaining the maximum visits count. -/
def firstArgmaxVisitsGo : Nat → Nat → Int → List (Node σ K) → Nat
  | _, b, _, [] => b
  | i, b, v, y :: ys =>
    if v < y.visits then firstArgmaxVisitsGo (i + 1) i y.visits ys
    else firstArgmaxVisitsGo (i + 1) b v ys

/-- Index of the first element of a child list with maximal visits (0 on
the empty list). -/
def firstArgmaxVisits : List (Node σ K) → Nat
  | [] => 0
  | x :: xs => firstArgmaxVisitsGo 1 0 x.visits xs

/-- The MonteCarloTreeSearch driver: build a root node from the initial
state, run the four-phase loop for the given iteration count, sort the
root's children by descending visits and return the state of the first,
most visited one.  Indexing the sorted list of an empty child list raises
IndexError.  The second component collects the emitted debug records. -/
def MonteCarloTreeSearch (g : Game σ) (fo : FloatOps K)
    (selFuel simFuel : Nat) (initial_state : σ) (iterations : Nat)
    (DEBUG : Bool) : Except Stuck σ × List (DebugRecord K) :=
  match searchLoop g fo selFuel simFuel iterations DEBUG iterations 0
      (Node.init initial_state) [] with
  | (.error e, logs) => (.error e, logs)
  | (.ok (root, _), logs) =>
    match sortedByVisitsDesc root.children with
    | [] => (.error (.py .indexError), logs)
    | most_visited :: _ =>
      (.ok most_visited.state,
       if DEBUG then
         logs ++ [debugRecord iterations root, debugRecord iterations most_visited]
       else logs)

/-! Basic lemmas about the node projections and list helpers. -/

@[simp] theorem Node.core_mk (c : NodeCore σ K) (cs : List (Node σ K)) :
    (Node.mk c cs).core = c := rfl

@[simp] theorem Node.children_mk (c : NodeCore σ K) (cs : List (Node σ K)) :
    (Node.mk c cs).children = cs := rfl

@[simp] theorem Node.state_mk (c : NodeCore σ K) (cs : List (Node σ K)) :
    (Node.mk c cs).state = c.state := rfl

@[simp] theorem Node.visits_mk (c : NodeCore σ K) (cs : List (Node σ K)) :
    (Node.mk c cs).visits = c.visits := rfl

@[simp] theorem Node.value_mk (c : NodeCore σ K) (cs : List (Node σ K)) :
    (Node.mk c cs).value = c.value := rfl

@[simp] theorem Node.ucb_mk (c : NodeCore σ K) (cs : List (Node σ K)) :
    (Node.mk c cs).ucb = c.ucb := rfl

@[simp] theorem Node.actions_taken_mk (c : NodeCore σ K) (cs : List (Node σ K)) :
    (Node.mk c cs).actions_taken = c.actions_taken := rfl

@[simp] theorem Node.visits_setUcb (u : K) (n : Node σ K) :
    (n.setUcb u).visits = n.visits := by cases n <;> rfl

@[simp] theorem Node.value_setUcb (u : K) (n : Node σ K) :
    (n.setUcb u).value = n.value := by cases n <;> rfl

@[simp] theorem Node.state_setUcb (u : K) (n : Node σ K) :
    (n.setUcb u).state = n.state := by cases n <;> rfl

@[simp] theorem Node.ucb_setUcb (u : K) (n : Node σ K) :
    (n.setUcb u).ucb = u := by cases n <;> rfl

@[simp] theorem Node.actions_taken_setUcb (u : K) (n : Node σ K) :
    (n.setUcb u).actions_taken = n.actions_taken := by cases n <;> rfl

@[simp] theorem Node.children_setUcb (u : K) (n : Node σ K) :
    (n.setUcb u).children = n.children := by cases n <;> rfl

@[simp] theorem Node.children_setChildren (cs : List (Node σ K)) (n : Node σ K) :
    (n.setChildren cs).children = cs := by cases n <;> rfl

@[simp] theorem Node.core_setChildren (cs : List (Node σ K)) (n : Node σ K) :
    (n.setChildren cs).core = n.core := by cases n <;> rfl

@[simp] theorem Node.visits_setChildren (cs : List (Node σ K)) (n : Node σ K) :
    (n.setChildren cs).visits = n.visits := by cases n <;> rfl

@[simp] theorem Node.value_setChildren (cs : List (Node σ K)) (n : Node σ K) :
    (n.setChildren cs).value = n.value := by cases n <;> rfl

@[simp] theorem Node.state_setChildren (cs : List (Node σ K)) (n : Node σ K) :
    (n.setChildren cs).state = n.state := by cases n <;> rfl

@[simp] theorem Node.ucb_setChildren (cs : List (Node σ K)) (n : Node σ K) :
    (n.setChildren cs).ucb = n.ucb := by cases n <;> rfl

@[simp] theorem Node.actions_taken_setChildren (cs : List (Node σ K)) (n : Node σ K) :
    (n.setChildren cs).actions_taken = n.actions_taken := by cases n <;> rfl

@[simp] theorem length_modifyIdx (f : α → α) :
    ∀ (i : Nat) (l : List α), (modifyIdx f i l).length = l.length
  | 0, [] => rfl
  | _ + 1, [] => rfl
  | 0, _ :: _ => rfl
  | i + 1, x :: xs => by simp [modifyIdx, length_modifyIdx f i xs]

theorem getElem?_modifyIdx (f : α → α) :
    ∀ (i : Nat) (l : List α) (j : Nat),
      (modifyIdx f i l)[j]? = if i = j then l[j]?.map f else l[j]?
  | 0, [], j => by cases j <;> simp [modifyIdx]
  | _ + 1, [], j => by cases j <;> simp [modifyIdx]
  | 0, x :: xs, 0 => by simp [modifyIdx]
  | 0, x :: xs, j + 1 => by simp [modifyIdx]
  | i + 1, x :: xs, 0 => by simp [modifyIdx]
  | i + 1, x :: xs, j + 1 => by
    simp only [modifyIdx, List.getElem?_cons_succ]
    rw [getElem?_modifyIdx f i xs j]
    simp [Nat.succ_inj]

@[simp] theorem getAt_nil (n : Node σ K) : getAt n [] = some n := rfl

theorem getAt_cons (n : Node σ K) (i : Nat) (rest : List Nat) :
    getAt n (i :: rest) = (n.children[i]?).bind fun c => getAt c rest := by
  cases h : n.children[i]? <;> simp [getAt, h]

theorem getAt_mk_cons (core : NodeCore σ K) (cs : List (Node σ K)) (j : Nat)
    (q : List Nat) :
    getAt (Node.mk core cs) (j :: q) = cs[j]?.bind fun c => getAt c q := by
  rw [getAt_cons]
  rfl

theorem getAt_setUcb (u : K) (n : Node σ K) (q : List Nat) (h : q ≠ []) :
    getAt (n.setUcb u) q = getAt n q := by
  cases q with
  | nil => exact absurd rfl h
  | cons i rest => cases n <;> rfl

/-! Claim C5: error behaviour of the UCB computation on zero visit
counts. -/

/-- A node carrying prescribed visits and value statistics, used to state
formula-level properties of calc_UCB. -/
def statNode (visits value : Int) : Node Unit K := .mk ⟨(), visits, value, 0, []⟩ []

@[simp] theorem visits_statNode (vs vl : Int) :
    (statNode vs vl : Node Unit K).visits = vs := rfl

@[simp] theorem value_statNode (vs vl : Int) :
    (statNode vs vl : Node Unit K).value = vl := rfl

/-- Rational float operations with degenerate sqrt and log, used to run
the engine on concrete executable inputs. -/
def qZeroOps : FloatOps ℚ := ⟨fun _ => 0, fun _ => 0⟩

/-- C5 counterexample: scoring a child with zero visits produces the
low-level ZeroDivisionError of the division child.value / child.visits,
and scoring a once-visited child against a parent with zero visits
produces the low-level ValueError of math.log(0); neither is an explicit
checked precondition surfaced as a distinct, clearly named error. -/
theorem c5_counterexample :
    calc_UCB_run realFloatOps (statNode 0 0) (statNode 1 0) (Real.sqrt 2)
        = .error .zeroDivisionError ∧
      calc_UCB_run realFloatOps (statNode 1 0) (statNode 0 0) (Real.sqrt 2)
        = .error .valueError := by
  constructor <;> simp [calc_UCB_run]

/-- C5 as amended: computing a UCB score for a child with visits == 0
raises ZeroDivisionError from the division child.value / child.visits,
and computing one for a child with nonzero visits against a parent with
visits == 0 raises ValueError from log of zero; there is no explicit
precondition check, and no NaN or other numeric result is produced in
either case. -/
theorem c5_ucb_zero_visits_raises (fo : FloatOps K) (child parent : Node σ K)
    (c : K) :
    (child.visits = 0 →
      calc_UCB_run fo child parent c = .error .zeroDivisionError) ∧
    (child.visits ≠ 0 → parent.visits = 0 →
      calc_UCB_run fo child parent c = .error .valueError) := by
  constructor
  · intro h
    simp [calc_UCB_run, h]
  · intro h h0
    simp [calc_UCB_run, h, h0]

/-- C5 witness: the amended statement evaluated on concrete nodes. -/
theorem c5_witness :
    calc_UCB_run (σ := Unit) qZeroOps (statNode 0 5) (statNode 1 0) 1
        = .error .zeroDivisionError ∧
      calc_UCB_run (σ := Unit) qZeroOps (statNode 2 5) (statNode 0 0) 1
        = .error .valueError :=
  ⟨(c5_ucb_zero_visits_raises qZeroOps (statNode 0 5) (statNode 1 0) 1).1 rfl,
   (c5_ucb_zero_visits_raises qZeroOps (statNode 2 5) (statNode 0 0) 1).2
     (by decide) rfl⟩

/-! Claim C7: monotonicity of the UCB formula. -/

/-- C7 counterexample: with child.value fixed at -100 and parent.visits
fixed at 2, the UCB score at child.visits 2 is not smaller than at
child.visits 1, so the score is not strictly decreasing in child.visits
on the claimed domain; moreover with child.value 0 and parent.visits 1
the scores at child.visits 1 and 2 are equal. -/
theorem c7_counterexample :
    ¬ (calc_UCB realFloatOps (statNode 2 (-100)) (statNode 2 0) (Real.sqrt 2) <
        calc_UCB realFloatOps (statNode 1 (-100)) (statNode 2 0) (Real.sqrt 2)) ∧
      calc_UCB realFloatOps (statNode 2 0) (statNode 1 0) (Real.sqrt 2) =
        calc_UCB realFloatOps (statNode 1 0) (statNode 1 0) (Real.sqrt 2) := by
  constructor
  · rw [not_lt]
    have h1 : calc_UCB realFloatOps (statNode 1 (-100)) (statNode 2 0) (Real.sqrt 2)
        ≤ -98 := by
      simp only [calc_UCB, realFloatOps, visits_statNode, value_statNode]
      push_cast
      have hlog : Real.log 2 ≤ 1 := by
        have := Real.log_le_sub_one_of_pos (x := 2) (by norm_num)
        linarith
      have hs1 : Real.sqrt (Real.log 2 / 1) ≤ 1 := by
        rw [div_one, Real.sqrt_le_left (by norm_num : (0:ℝ) ≤ 1)]
        simpa using hlog
      have hs2 : Real.sqrt 2 ≤ 2 := by
        rw [Real.sqrt_le_left (by norm_num : (0:ℝ) ≤ 2)]
        norm_num
      have hm : Real.sqrt 2 * Real.sqrt (Real.log 2 / 1) ≤ 2 * 1 :=
        mul_le_mul hs2 hs1 (Real.sqrt_nonneg _) (by norm_num)
      have : (-100 : ℝ) / 1 = -100 := by norm_num
      rw [this]
      linarith
    have h2 : (-50 : ℝ) ≤
        calc_UCB realFloatOps (statNode 2 (-100)) (statNode 2 0) (Real.sqrt 2) := by
      simp only [calc_UCB, realFloatOps, visits_statNode, value_statNode]
      push_cast
      have hm : 0 ≤ Real.sqrt 2 * Real.sqrt (Real.log 2 / 2) :=
        mul_nonneg (Real.sqrt_nonneg _) (Real.sqrt_nonneg _)
      have : (-100 : ℝ) / 2 = -50 := by norm_num
      rw [this]
      linarith
    linarith
  · simp [calc_UCB, realFloatOps, Real.log_one]

/-- C7 as amended: the UCB score is monotonically non-decreasing in
child.value for fixed child.visits >= 1, fixed parent.visits and fixed
exploration_param, and strictly decreasing in child.visits for fixed
child.value >= 0, fixed parent.visits >= 2 and fixed
exploration_param > 0, for all child.visits >= 1.  (For negative
child.value, or for parent.visits = 1 with child.value = 0, the strict
decrease fails, as the counterexample shows.) -/
theorem c7_ucb_monotonicity :
    (∀ (v₁ v₂ n p : Int) (c : ℝ), v₁ ≤ v₂ → 1 ≤ n →
      calc_UCB realFloatOps (statNode n v₁) (statNode p 0) c ≤
        calc_UCB realFloatOps (statNode n v₂) (statNode p 0) c) ∧
    (∀ (v n₁ n₂ p : Int) (c : ℝ), 0 ≤ v → 1 ≤ n₁ → n₁ < n₂ → 2 ≤ p → 0 < c →
      calc_UCB realFloatOps (statNode n₂ v) (statNode p 0) c <
        calc_UCB realFloatOps (statNode n₁ v) (statNode p 0) c) := by
  constructor
  · intro v₁ v₂ n p c hv hn
    simp only [calc_UCB, realFloatOps, visits_statNode, value_statNode]
    have hn' : (0 : ℝ) < (n : ℝ) := by exact_mod_cast lt_of_lt_of_le Int.zero_lt_one hn
    have hdiv : ((v₁ : ℝ)) / (n : ℝ) ≤ ((v₂ : ℝ)) / (n : ℝ) :=
      (div_le_div_right hn').mpr (by exact_mod_cast hv)
    linarith
  · intro v n₁ n₂ p c hv hn₁ hlt hp hc
    simp only [calc_UCB, realFloatOps, visits_statNode, value_statNode]
    have hn₁' : (0 : ℝ) < (n₁ : ℝ) := by
      exact_mod_cast lt_of_lt_of_le Int.zero_lt_one hn₁
    have hn₂' : (0 : ℝ) < (n₂ : ℝ) := by
      have : (1 : Int) ≤ n₂ := le_trans hn₁ (le_of_lt hlt)
      exact_mod_cast lt_of_lt_of_le Int.zero_lt_one this
    have hnn : (n₁ : ℝ) < (n₂ : ℝ) := by exact_mod_cast hlt
    have hv' : (0 : ℝ) ≤ (v : ℝ) := by exact_mod_cast hv
    have hlog : 0 < Real.log (p : ℝ) := by
      apply Real.log_pos
      have : (2 : ℝ) ≤ (p : ℝ) := by exact_mod_cast hp
      linarith
    have hexploit : ((v : ℝ)) / (n₂ : ℝ) ≤ ((v : ℝ)) / (n₁ : ℝ) := by
      rw [div_eq_mul_one_div (v : ℝ), div_eq_mul_one_div (v : ℝ)]
      exact mul_le_mul_of_nonneg_left (one_div_le_one_div_of_le hn₁' (le_of_lt hnn)) hv'
    have hdivlt : Real.log (p : ℝ) / (n₂ : ℝ) < Real.log (p : ℝ) / (n₁ : ℝ) :=
      (div_lt_div_left hlog hn₂' hn₁').mpr hnn
    have hdiv0 : 0 ≤ Real.log (p : ℝ) / (n₂ : ℝ) :=
      div_nonneg (le_of_lt hlog) (le_of_lt hn₂')
    have hexplore : c * Real.sqrt (Real.log (p : ℝ) / (n₂ : ℝ)) <
        c * Real.sqrt (Real.log (p : ℝ) / (n₁ : ℝ)) :=
      mul_lt_mul_of_pos_left (Real.sqrt_lt_sqrt hdiv0 hdivlt) hc
    linarith

/-- C7 witness: the amended monotonicity statement evaluated at concrete
statistics. -/
theorem c7_witness :
    calc_UCB realFloatOps (statNode 1 0) (statNode 1 0) (Real.sqrt 2) ≤
        calc_UCB realFloatOps (statNode 1 1) (statNode 1 0) (Real.sqrt 2) ∧
      calc_UCB realFloatOps (statNode 2 1) (statNode 2 0) 1 <
        calc_UCB realFloatOps (statNode 1 1) (statNode 2 0) 1 :=
  ⟨c7_ucb_monotonicity.1 0 1 1 1 (Real.sqrt 2) (by decide) (by decide),
   c7_ucb_monotonicity.2 1 1 2 2 1 (by decide) (by decide) (by decide) (by decide)
     (by norm_num)⟩

/-! Characterization of the child-scoring loop of select. -/

/-- The UCB score select computes for a child of parent: calc_UCB with
the default exploration parameter math.sqrt(2), which every call site in
MCTS.py uses. -/
def ucbOf (fo : FloatOps K) (parent c : Node σ K) : K :=
  calc_UCB fo c parent (fo.sqrt 2)

theorem calc_UCB_run_eq_ok (fo : FloatOps K) (child parent : Node σ K) (c u : K)
    (h : calc_UCB_run fo child parent c = .ok u) :
    u = calc_UCB fo child parent c := by
  unfold calc_UCB_run at h
  split at h
  · exact Except.noConfusion h
  · split at h
    · exact Except.noConfusion h
    · split at h
      · exact Except.noConfusion h
      · exact (Except.ok.inj h).symm

/-- The pure best-index computation performed by the scoring loop:
starting from current best index b with (already recomputed) best score
bu, scan the remaining children, replacing the best only on a strictly
greater score. -/
def bestFold (u : Node σ K → K) : List (Node σ K) → Nat → Nat → K → Nat
  | [], _, b, _ => b
  | c :: rest, idx, b, bu =>
    if bu < u c then bestFold u rest (idx + 1) idx (u c)
    else bestFold u rest (idx + 1) b bu

theorem bestFold_spec (u : Node σ K → K) :
    ∀ (rest : List (Node σ K)) (idx b : Nat) (bu : K),
      (bestFold u rest idx b bu = b ∧
        ∀ (i : Nat) (ci : Node σ K), rest[i]? = some ci → u ci ≤ bu) ∨
      (∃ (k : Nat) (ck : Node σ K), rest[k]? = some ck ∧
        bestFold u rest idx b bu = idx + k ∧
        bu < u ck ∧
        (∀ (i : Nat) (ci : Node σ K), rest[i]? = some ci → u ci ≤ u ck) ∧
        (∀ (i : Nat) (ci : Node σ K), i < k → rest[i]? = some ci → u ci < u ck)) := by
  intro rest
  induction rest with
  | nil =>
    intro idx b bu
    left
    refine ⟨rfl, ?_⟩
    intro i ci h
    simp at h
  | cons c rest ih =>
    intro idx b bu
    by_cases hc : bu < u c
    · have hbf : bestFold u (c :: rest) idx b bu = bestFold u rest (idx + 1) idx (u c) := by
        simp [bestFold, hc]
      rcases ih (idx + 1) idx (u c) with ⟨he, hall⟩ | ⟨k, ck, hk, he, hbu, hall, hfirst⟩
      · right
        refine ⟨0, c, by simp, by rw [hbf, he]; omega, hc, ?_, ?_⟩
        · intro i ci hi
          cases i with
          | zero =>
            obtain rfl : c = ci := by simpa using hi
            exact le_refl _
          | succ i => exact hall i ci (by simpa using hi)
        · intro i ci hlt
          omega
      · right
        refine ⟨k + 1, ck, by simpa using hk, by rw [hbf, he]; omega,
          lt_trans hc hbu, ?_, ?_⟩
        · intro i ci hi
          cases i with
          | zero =>
            obtain rfl : c = ci := by simpa using hi
            exact le_of_lt hbu
          | succ i => exact hall i ci (by simpa using hi)
        · intro i ci hlt hi
          cases i with
          | zero =>
            obtain rfl : c = ci := by simpa using hi
            exact hbu
          | succ i => exact hfirst i ci (by omega) (by simpa using hi)
    · have hbf : bestFold u (c :: rest) idx b bu = bestFold u rest (idx + 1) b bu := by
        simp [bestFold, hc]
      rcases ih (idx + 1) b bu with ⟨he, hall⟩ | ⟨k, ck, hk, he, hbu, hall, hfirst⟩
      · left
        refine ⟨by rw [hbf, he], ?_⟩
        intro i ci hi
        cases i with
        | zero =>
          obtain rfl : c = ci := by simpa using hi
          exact not_lt.mp hc
        | succ i => exact hall i ci (by simpa using hi)
      · right
        refine ⟨k + 1, ck, by simpa using hk, by rw [hbf, he]; omega, hbu, ?_, ?_⟩
        · intro i ci hi
          cases i with
          | zero =>
            obtain rfl : c = ci := by simpa using hi
            exact le_of_lt (lt_of_le_of_lt (not_lt.mp hc) hbu)
          | succ i => exact hall i ci (by simpa using hi)
        · intro i ci hlt hi
          cases i with
          | zero =>
            obtain rfl : c = ci := by simpa using hi
            exact lt_of_le_of_lt (not_lt.mp hc) hbu
          | succ i => exact hfirst i ci (by omega) (by simpa using hi)

theorem scoreLoop_ok (fo : FloatOps K) (parent : Node σ K) :
    ∀ (rest : List (Node σ K)) (idx : Nat) (acc : List (Node σ K)) (b : Nat)
      (bu : K) (out : List (Node σ K)) (j : Nat),
      scoreLoop fo parent rest idx acc b bu = .ok (out, j) →
      (∀ c ∈ rest, calc_UCB_run fo c parent (fo.sqrt 2) = .ok (ucbOf fo parent c)) ∧
      out = acc.reverse ++ rest.map (fun c => c.setUcb (ucbOf fo parent c)) ∧
      j = bestFold (ucbOf fo parent) rest idx b bu := by
  intro rest
  induction rest with
  | nil =>
    intro idx acc b bu out j h
    simp only [scoreLoop, Except.ok.injEq, Prod.mk.injEq] at h
    obtain ⟨h1, h2⟩ := h
    refine ⟨by simp, by rw [← h1]; simp, by rw [← h2]; simp [bestFold]⟩
  | cons c rest ih =>
    intro idx acc b bu out j h
    simp only [scoreLoop] at h
    split at h
    · exact Except.noConfusion h
    · rename_i u hrun
      have hu : u = ucbOf fo parent c :=
        calc_UCB_run_eq_ok fo c parent (fo.sqrt 2) u hrun
      split at h
      · rename_i hcmp
        obtain ⟨hruns, hout, hj⟩ := ih (idx + 1) (c.setUcb u :: acc) idx u out j h
        refine ⟨?_, ?_, ?_⟩
        · intro d hd
          rcases List.mem_cons.mp hd with hd | hd
          · rw [hd, hrun, hu]
          · exact hruns d hd
        · rw [hout, hu]; simp
        · rw [hj]; rw [hu] at hcmp ⊢; simp [bestFold, hcmp]
      · rename_i hcmp
        obtain ⟨hruns, hout, hj⟩ := ih (idx + 1) (c.setUcb u :: acc) b bu out j h
        refine ⟨?_, ?_, ?_⟩
        · intro d hd
          rcases List.mem_cons.mp hd with hd | hd
          · rw [hd, hrun, hu]
          · exact hruns d hd
        · rw [hout, hu]; simp
        · rw [hj]; rw [hu] at hcmp; simp [bestFold, hcmp]

theorem scoreChildren_ok (fo : FloatOps K) (parent : Node σ K)
    (cs cs' : List (Node σ K)) (j : Nat)
    (h : scoreChildren fo parent cs = .ok (cs', j)) (hne : cs ≠ []) :
    (∀ c ∈ cs, calc_UCB_run fo c parent (fo.sqrt 2) = .ok (ucbOf fo parent c)) ∧
    cs' = cs.map (fun c => c.setUcb (ucbOf fo parent c)) ∧
    j < cs.length ∧
    (∃ cj : Node σ K, cs[j]? = some cj ∧
      (∀ (i : Nat) (ci : Node σ K), cs[i]? = some ci →
        ucbOf fo parent ci ≤ ucbOf fo parent cj) ∧
      (∀ (i : Nat) (ci : Node σ K), i < j → cs[i]? = some ci →
        ucbOf fo parent ci < ucbOf fo parent cj)) := by
  cases cs with
  | nil => exact absurd rfl hne
  | cons c rest =>
    simp only [scoreChildren] at h
    split at h
    · exact Except.noConfusion h
    · rename_i u hrun
      have hu : u = ucbOf fo parent c :=
        calc_UCB_run_eq_ok fo c parent (fo.sqrt 2) u hrun
      obtain ⟨hruns, hout, hj⟩ := scoreLoop_ok fo parent rest 1 [c.setUcb u] 0 u cs' j h
      have hrunsAll : ∀ d ∈ c :: rest,
          calc_UCB_run fo d parent (fo.sqrt 2) = .ok (ucbOf fo parent d) := by
        intro d hd
        rcases List.mem_cons.mp hd with hd | hd
        · rw [hd, hrun, hu]
        · exact hruns d hd
      have houtAll : cs' = (c :: rest).map (fun d => d.setUcb (ucbOf fo parent d)) := by
        rw [hout, hu]; simp
      rcases bestFold_spec (ucbOf fo parent) rest 1 0 u with ⟨he, hall⟩ |
        ⟨k, ck, hk, he, hbu, hall, hfirst⟩
      · have hj0 : j = 0 := by rw [hj, he]
        subst hj0
        refine ⟨hrunsAll, houtAll, by simp, c, by simp, ?_, by omega⟩
        intro i ci hi
        cases i with
        | zero =>
          obtain rfl : c = ci := by simpa using hi
          exact le_refl _
        | succ i =>
          have := hall i ci (by simpa using hi)
          rw [hu] at this
          exact this
      · have hjk : j = k + 1 := by rw [hj, he]; omega
        subst hjk
        have hklen : k < rest.length := (List.getElem?_eq_some_iff.mp hk).1
        refine ⟨hrunsAll, houtAll, by simpa using Nat.succ_lt_succ hklen,
          ck, by simpa using hk, ?_, ?_⟩
        · intro i ci hi
          cases i with
          | zero =>
            obtain rfl : c = ci := by simpa using hi
            rw [hu] at hbu
            exact le_of_lt hbu
          | succ i => exact hall i ci (by simpa using hi)
        · intro i ci hlt hi
          cases i with
          | zero =>
            obtain rfl : c = ci := by simpa using hi
            rw [hu] at hbu
            exact hbu
          | succ i => exact hfirst i ci (by omega) (by simpa using hi)

/-! Structural lemmas about the select phase. -/

/-- Every field of a node except the scratch ucb field, together with the
number of children; select may only change ucb fields, so this data is
preserved at every path. -/
def info (n : Node σ K) : σ × Int × Int × List Int × Nat :=
  (n.state, n.visits, n.value, n.actions_taken, n.children.length)

theorem info_setUcb (u : K) (n : Node σ K) : info (n.setUcb u) = info n := by
  simp [info]

theorem getAt_map_info_setUcb (u : K) (c : Node σ K) (q : List Nat) :
    (getAt (c.setUcb u) q).map info = (getAt c q).map info := by
  cases q with
  | nil => simp [info_setUcb]
  | cons i rest => rw [getAt_setUcb u c _ (by simp)]

/-- If the selection loop stops (no children, or the state is not
exhausted), it returns the current node unchanged with the empty path,
whatever the fuel. -/
theorem select_stop (g : Game σ) (fo : FloatOps K) (fuel : Nat) (n : Node σ K)
    (h : ¬ (0 < n.children.length ∧
      g.state_exhausted n.state n.children.length = true)) :
    select g fo fuel n = .ok (n, []) := by
  cases fuel with
  | zero => simp [select, h]
  | succ fuel => simp [select, h]

/-- A successful select never changes the scalar fields of the node it
was applied to: only ucb fields (of descendants) are recomputed. -/
theorem select_core_root (g : Game σ) (fo : FloatOps K) (fuel : Nat)
    (n r : Node σ K) (p : List Nat) (h : select g fo fuel n = .ok (r, p)) :
    r.core = n.core := by
  cases fuel with
  | zero =>
    simp only [select] at h
    split at h
    · exact Except.noConfusion h
    · obtain ⟨h1, _⟩ := Prod.mk.inj (Except.ok.inj h)
      rw [← h1]
  | succ fuel =>
    simp only [select] at h
    split at h
    · split at h
      · exact Except.noConfusion h
      · split at h
        · exact Except.noConfusion h
        · obtain ⟨h1, _⟩ := Prod.mk.inj (Except.ok.inj h)
          rw [← h1]; simp
    · obtain ⟨h1, _⟩ := Prod.mk.inj (Except.ok.inj h)
      rw [← h1]

/-- A successful select preserves, at every path, every node field except
the scratch ucb field, and in particular the whole tree shape and all
visits, value, state and actions_taken data. -/
theorem select_info (g : Game σ) (fo : FloatOps K) :
    ∀ (fuel : Nat) (n r : Node σ K) (p : List Nat),
      select g fo fuel n = .ok (r, p) →
      ∀ q, (getAt r q).map info = (getAt n q).map info := by
  intro fuel
  induction fuel with
  | zero =>
    intro n r p h q
    simp only [select] at h
    split at h
    · exact Except.noConfusion h
    · obtain ⟨h1, _⟩ := Prod.mk.inj (Except.ok.inj h)
      rw [← h1]
  | succ fuel ih =>
    intro n r p h q
    simp only [select] at h
    split at h
    · rename_i hguard
      split at h
      · exact Except.noConfusion h
      · rename_i cs' j hsc
        split at h
        · exact Except.noConfusion h
        · rename_i c' p' hsel
          obtain ⟨h1, _⟩ := Prod.mk.inj (Except.ok.inj h)
          have hne : n.children ≠ [] := List.length_pos_iff_ne_nil.mp hguard.1
          obtain ⟨_, hout, hjlen, cj, hcj, _, _⟩ :=
            scoreChildren_ok fo n n.children cs' j hsc hne
          have hcs'j : cs'[j]? = some (cj.setUcb (ucbOf fo n cj)) := by
            rw [hout, List.getElem?_map, hcj]
            rfl
          have hgd : cs'.getD j n = cj.setUcb (ucbOf fo n cj) := by
            rw [List.getD_eq_getElem?_getD, hcs'j]
            rfl
          rw [← h1]
          cases q with
          | nil =>
            simp only [getAt_nil, Option.map_some]
            have hlen : (modifyIdx (fun _ => c') j cs').length = n.children.length := by
              rw [length_modifyIdx, hout, List.length_map]
            simp [info, hlen]
          | cons i q' =>
            rw [getAt_cons, getAt_cons, Node.children_setChildren,
              getElem?_modifyIdx]
            by_cases hij : j = i
            · subst hij
              rw [if_pos rfl, hcs'j, hcj]
              simp only [Option.map_some', Option.some_bind]
              have e1 := ih (cs'.getD j n) c' p' hsel q'
              rw [hgd] at e1
              rw [e1, getAt_map_info_setUcb]
            · rw [if_neg hij, hout, List.getElem?_map]
              cases hci : n.children[i]? with
              | none => simp
              | some ci =>
                simp only [Option.map_some', Option.some_bind]
                rw [getAt_map_info_setUcb]
    · obtain ⟨h1, _⟩ := Prod.mk.inj (Except.ok.inj h)
      rw [← h1]

/-! Claim C3: behaviour of the select phase. -/

/-- C3: selection starts at the current node and (first conjunct) stops,
returning the node unchanged with the empty descent path, as soon as the
node has no child or its state does not report exhaustion; otherwise
(second conjunct) a successful select recomputes the scratch ucb field of
every child from calc_UCB and descends into the child with the strictly
greatest score, keeping the first child in insertion order on ties: the
head of the returned path is an index of maximal recomputed score such
that every earlier child scores strictly less. -/
theorem c3_select_descends_to_first_argmax (g : Game σ) (fo : FloatOps K) :
    (∀ (fuel : Nat) (n : Node σ K),
      ¬ (0 < n.children.length ∧
        g.state_exhausted n.state n.children.length = true) →
      select g fo fuel n = .ok (n, [])) ∧
    (∀ (fuel : Nat) (n r : Node σ K) (p : List Nat),
      0 < n.children.length →
      g.state_exhausted n.state n.children.length = true →
      select g fo (fuel + 1) n = .ok (r, p) →
      p ≠ [] ∧
      p.headD 0 < n.children.length ∧
      (∀ i : Nat, i < n.children.length →
        ucbOf fo n (n.children.getD i n) ≤
          ucbOf fo n (n.children.getD (p.headD 0) n)) ∧
      (∀ i : Nat, i < p.headD 0 →
        ucbOf fo n (n.children.getD i n) <
          ucbOf fo n (n.children.getD (p.headD 0) n)) ∧
      (∀ i : Nat, i < n.children.length →
        (r.children.getD i n).ucb = ucbOf fo n (n.children.getD i n))) := by
  constructor
  · exact fun fuel n h => select_stop g fo fuel n h
  · intro fuel n r p h0 hex h
    simp only [select] at h
    rw [if_pos ⟨h0, hex⟩] at h
    split at h
    · exact Except.noConfusion h
    · rename_i cs' j hsc
      split at h
      · exact Except.noConfusion h
      · rename_i c' p' hsel
        obtain ⟨h1, h2⟩ := Prod.mk.inj (Except.ok.inj h)
        have hne : n.children ≠ [] := List.length_pos_iff_ne_nil.mp h0
        obtain ⟨_, hout, hjlen, cj, hcj, hmax, hfirst⟩ :=
          scoreChildren_ok fo n n.children cs' j hsc hne
        have hgetj : n.children[j]? = some (n.children.getD j n) := by
          rw [List.getElem?_eq_getElem hjlen, List.getD_eq_getElem n.children n hjlen]
        have hcjD : cj = n.children.getD j n := by
          rw [hgetj] at hcj
          exact (Option.some.inj hcj).symm
        have hhead : p.headD 0 = j := by rw [← h2]; rfl
        refine ⟨by rw [← h2]; simp, by rw [hhead]; exact hjlen, ?_, ?_, ?_⟩
        · intro i hi
          have hgeti : n.children[i]? = some (n.children.getD i n) := by
            rw [List.getElem?_eq_getElem hi, List.getD_eq_getElem n.children n hi]
          rw [hhead, ← hcjD]
          exact hmax i (n.children.getD i n) hgeti
        · intro i hi
          rw [hhead] at hi
          have hilen : i < n.children.length := lt_trans hi hjlen
          have hgeti : n.children[i]? = some (n.children.getD i n) := by
            rw [List.getElem?_eq_getElem hilen, List.getD_eq_getElem n.children n hilen]
          rw [hhead, ← hcjD]
          exact hfirst i (n.children.getD i n) hi hgeti
        · intro i hi
          have hgeti : n.children[i]? = some (n.children.getD i n) := by
            rw [List.getElem?_eq_getElem hi, List.getD_eq_getElem n.children n hi]
          rw [← h1, Node.children_setChildren]
          by_cases hij : j = i
          · subst hij
            have hcs'j : cs'[j]? = some (cj.setUcb (ucbOf fo n cj)) := by
              rw [hout, List.getElem?_map, hcj]
              rfl
            have : (modifyIdx (fun _ => c') j cs')[j]? = some c' := by
              rw [getElem?_modifyIdx, if_pos rfl, hcs'j]
              rfl
            rw [List.getD_eq_getElem?_getD, this]
            have hcore : c'.core = (cs'.getD j n).core :=
              select_core_root g fo fuel (cs'.getD j n) c' p' hsel
            have hgd : cs'.getD j n = cj.setUcb (ucbOf fo n cj) := by
              rw [List.getD_eq_getElem?_getD, hcs'j]
              rfl
            have : c'.ucb = ucbOf fo n cj := by
              show c'.core.ucb = _
              rw [hcore, hgd]
              cases cj <;> rfl
            rw [Option.getD_some, this, hcjD]
          · have : (modifyIdx (fun _ => c') j cs')[i]? =
                some ((n.children.getD i n).setUcb (ucbOf fo n (n.children.getD i n))) := by
              rw [getElem?_modifyIdx, if_neg hij, hout, List.getElem?_map, hgeti]
              rfl
            rw [List.getD_eq_getElem?_getD, this, Option.getD_some, Node.ucb_setUcb]

/-- Game on Nat states used by the select witness: never terminated,
always exhausted. -/
def wGameSel : Game Nat :=
  ⟨fun _ => false, fun _ s _ => (0, s), fun _ _ => 0, fun _ _ => true⟩

/-- Children of the select witness tree: one visit each, values 1 and 0. -/
def wNodeA : Node Nat ℚ := .mk ⟨10, 1, 1, 0, []⟩ []

/-- Second child of the select witness tree. -/
def wNodeB : Node Nat ℚ := .mk ⟨11, 1, 0, 0, []⟩ []

/-- Root of the select witness tree: two visits, two children. -/
def wRootSel : Node Nat ℚ := .mk ⟨0, 2, 0, 0, []⟩ [wNodeA, wNodeB]

/-- The tree select produces on wRootSel: both children's ucb fields are
recomputed (to 1 and 0). -/
def wSelRes : Node Nat ℚ :=
  .mk ⟨0, 2, 0, 0, []⟩ [.mk ⟨10, 1, 1, 1, []⟩ [], .mk ⟨11, 1, 0, 0, []⟩ []]

/-- C3 witness: the characterization evaluated on a concrete tree; select
stops at a childless node, and on a two-child exhausted root it descends
to the first child, whose recomputed score 1 beats the second child's 0. -/
theorem c3_witness :
    select wGameSel qZeroOps 3 (Node.init 7 : Node Nat ℚ) = .ok (Node.init 7, []) ∧
    ucbOf qZeroOps wRootSel (wRootSel.children.getD 1 wRootSel) ≤
      ucbOf qZeroOps wRootSel
        (wRootSel.children.getD (([0] : List Nat).headD 0) wRootSel) ∧
    (wSelRes.children.getD 0 wRootSel).ucb =
      ucbOf qZeroOps wRootSel (wRootSel.children.getD 0 wRootSel) := by
  obtain ⟨hstop, hdesc⟩ := c3_select_descends_to_first_argmax wGameSel qZeroOps
  have hsel : select wGameSel qZeroOps (0 + 1) wRootSel = .ok (wSelRes, [0]) := by
    norm_num [select, scoreChildren, scoreLoop, calc_UCB_run, calc_UCB, wGameSel,
      qZeroOps, wRootSel, wNodeA, wNodeB, wSelRes, modifyIdx, Node.setUcb,
      Node.setChildren]
  obtain ⟨hp, hlen, hmax, hfirst, hucb⟩ :=
    hdesc 0 wRootSel wSelRes [0] (by simp [wRootSel]) rfl hsel
  exact ⟨hstop 3 (Node.init 7) (by simp [Node.init]),
    hmax 1 (by simp [wRootSel]), hucb 0 (by simp [wRootSel])⟩

/-! Claim C6: the UCB scores computed during a search are exactly the
UCB1 formula with exploration parameter sqrt(2). -/

/-- C6: every UCB1 score computed during a search equals
child.value / child.visits + c * sqrt(ln(parent.visits) / child.visits):
a successful checked UCB evaluation returns exactly this formula (first
conjunct), and the scoring pass of select stores in every child's ucb
field exactly this formula at the default exploration parameter
math.sqrt(2) — the only exploration parameter the search ever passes,
since every call site of calc_UCB in MCTS.py relies on the default
(second conjunct). -/
theorem c6_ucb_formula :
    (∀ (child parent : Node σ ℝ) (c u : ℝ),
      calc_UCB_run realFloatOps child parent c = .ok u →
      u = (child.value : ℝ) / (child.visits : ℝ) +
        c * Real.sqrt (Real.log (parent.visits : ℝ) / (child.visits : ℝ))) ∧
    (∀ (parent : Node σ ℝ) (cs cs' : List (Node σ ℝ)) (j : Nat),
      scoreChildren realFloatOps parent cs = .ok (cs', j) → cs ≠ [] →
      ∀ (i : Nat) (ci : Node σ ℝ), cs[i]? = some ci →
        cs'[i]? = some (ci.setUcb ((ci.value : ℝ) / (ci.visits : ℝ) +
          Real.sqrt 2 * Real.sqrt (Real.log (parent.visits : ℝ) / (ci.visits : ℝ))))) := by
  constructor
  · intro child parent c u h
    rw [calc_UCB_run_eq_ok realFloatOps child parent c u h]
    rfl
  · intro parent cs cs' j h hne i ci hi
    obtain ⟨_, hout, _, _⟩ := scoreChildren_ok realFloatOps parent cs cs' j h hne
    rw [hout, List.getElem?_map, hi]
    rfl

/-- C6 witness: the formula statement evaluated at concrete nodes with
one visit and value zero, where the score reduces to 0. -/
theorem c6_witness :
    calc_UCB realFloatOps (statNode 1 0) (statNode 1 0) (Real.sqrt 2) = 0 ∧
    [(statNode 1 0 : Node Unit ℝ).setUcb
        (ucbOf realFloatOps (statNode 1 0) (statNode 1 0))][0]? =
      some ((statNode 1 0 : Node Unit ℝ).setUcb 0) := by
  have hrun : calc_UCB_run realFloatOps (statNode 1 0 : Node Unit ℝ) (statNode 1 0)
      (realFloatOps.sqrt 2) = .ok (calc_UCB realFloatOps (statNode 1 0) (statNode 1 0)
        (realFloatOps.sqrt 2)) := by
    simp [calc_UCB_run, realFloatOps, Real.log_one]
  have hval : ((statNode 1 0 : Node Unit ℝ).value : ℝ) /
        ((statNode 1 0 : Node Unit ℝ).visits : ℝ) +
      Real.sqrt 2 * Real.sqrt (Real.log (((statNode 1 0 : Node Unit ℝ).visits : ℝ)) /
        ((statNode 1 0 : Node Unit ℝ).visits : ℝ)) = 0 := by
    simp [Real.log_one]
  constructor
  · rw [(c6_ucb_formula (σ := Unit)).1 (statNode 1 0) (statNode 1 0) (Real.sqrt 2)
      (calc_UCB realFloatOps (statNode 1 0) (statNode 1 0) (Real.sqrt 2)) hrun]
    exact hval
  · have hsc : scoreChildren realFloatOps (statNode 1 0 : Node Unit ℝ)
        [statNode 1 0] = .ok ([(statNode 1 0 : Node Unit ℝ).setUcb
          (ucbOf realFloatOps (statNode 1 0) (statNode 1 0))], 0) := by
      simp [scoreChildren, scoreLoop, hrun, ucbOf]
    have := (c6_ucb_formula (σ := Unit)).2 (statNode 1 0) [statNode 1 0]
      [(statNode 1 0 : Node Unit ℝ).setUcb
        (ucbOf realFloatOps (statNode 1 0) (statNode 1 0))] 0 hsc
      (by simp) 0 (statNode 1 0) rfl
    rw [this, hval]

/-! Characterization of the backpropogate phase. -/

/-- The core update backpropogate applies to a node strictly below the
root: value += update_value(sim_state), then visits += 1. -/
def bpCore (g : Game σ) (sim : σ) (c : NodeCore σ K) : NodeCore σ K :=
  { c with value := c.value + g.update_value c.state sim,
           visits := c.visits + 1 }

/-- The core update backpropogate applies to the root: only visits += 1. -/
def bpRootCore (c : NodeCore σ K) : NodeCore σ K :=
  { c with visits := c.visits + 1 }

theorem backpropBelow_spec (g : Game σ) (sim : σ) :
    ∀ (path : List Nat) (n : Node σ K) (q : List Nat),
      (isPre q path = false →
        getAt (backpropBelow g sim path n) q = getAt n q) ∧
      (isPre q path = true →
        (getAt (backpropBelow g sim path n) q).map Node.core =
          (getAt n q).map (fun m => bpCore g sim m.core) ∧
        (getAt (backpropBelow g sim path n) q).map (fun m => m.children.length) =
          (getAt n q).map (fun m => m.children.length)) := by
  intro path
  induction path with
  | nil =>
    intro n q
    cases n with
    | mk core cs =>
      cases q with
      | nil =>
        refine ⟨fun hf => by simp [isPre] at hf, fun _ => ?_⟩
        simp [backpropBelow, bpCore]
      | cons j q' =>
        refine ⟨fun _ => ?_, fun ht => by simp [isPre] at ht⟩
        rw [getAt_cons, getAt_cons]
        rfl
  | cons i rest ih =>
    intro n q
    cases n with
    | mk core cs =>
      cases q with
      | nil =>
        refine ⟨fun hf => by simp [isPre] at hf, fun _ => ?_⟩
        constructor
        · simp [backpropBelow, bpCore]
        · simp [backpropBelow]
      | cons j q' =>
        have hbl : getAt (backpropBelow g sim (i :: rest) (Node.mk core cs)) (j :: q') =
            (modifyIdx (backpropBelow g sim rest) i cs)[j]?.bind fun c => getAt c q' := by
          rw [show backpropBelow g sim (i :: rest) (Node.mk core cs) =
            Node.mk (bpCore g sim core) (modifyIdx (backpropBelow g sim rest) i cs)
            from rfl, getAt_mk_cons]
        by_cases hij : i = j
        · subst hij
          have hpre : isPre (i :: q') (i :: rest) = isPre q' rest := by
            simp [isPre]
          cases hc : cs[i]? with
          | none =>
            refine ⟨fun _ => ?_, fun _ => ?_⟩
            · rw [hbl, getAt_mk_cons, getElem?_modifyIdx, if_pos rfl, hc]
              rfl
            · rw [hbl, getAt_mk_cons, getElem?_modifyIdx, if_pos rfl, hc]
              exact ⟨rfl, rfl⟩
          | some c =>
            obtain ⟨ih1, ih2⟩ := ih c q'
            refine ⟨fun hf => ?_, fun ht => ?_⟩
            · rw [hpre] at hf
              rw [hbl, getAt_mk_cons, getElem?_modifyIdx, if_pos rfl, hc]
              simp only [Option.map_some', Option.some_bind]
              exact ih1 hf
            · rw [hpre] at ht
              obtain ⟨e1, e2⟩ := ih2 ht
              constructor
              · rw [hbl, getAt_mk_cons, getElem?_modifyIdx, if_pos rfl, hc]
                simpa using e1
              · rw [hbl, getAt_mk_cons, getElem?_modifyIdx, if_pos rfl, hc]
                simpa using e2
        · have hpre : isPre (j :: q') (i :: rest) = false := by
            simp [isPre]
            intro hji
            exact absurd hji.symm hij
          refine ⟨fun _ => ?_, fun ht => by rw [hpre] at ht; exact Bool.noConfusion ht⟩
          rw [hbl, getAt_mk_cons, getElem?_modifyIdx, if_neg (fun hh => hij hh)]

theorem backpropogate_root_scalar (g : Game σ) (sim : σ) (path : List Nat)
    (n : Node σ K) :
    (backpropogate g sim path n).visits = n.visits + 1 ∧
    (backpropogate g sim path n).value = n.value ∧
    (backpropogate g sim path n).state = n.state ∧
    (backpropogate g sim path n).actions_taken = n.actions_taken ∧
    (backpropogate g sim path n).children.length = n.children.length := by
  cases path with
  | nil => cases n with
    | mk core cs => simp [backpropogate]
  | cons i rest => cases n with
    | mk core cs => simp [backpropogate]

theorem backpropogate_spec (g : Game σ) (sim : σ) (path : List Nat)
    (n : Node σ K) :
    ∀ (q : List Nat), q ≠ [] →
      (isPre q path = false →
        getAt (backpropogate g sim path n) q = getAt n q) ∧
      (isPre q path = true →
        (getAt (backpropogate g sim path n) q).map Node.core =
          (getAt n q).map (fun m => bpCore g sim m.core) ∧
        (getAt (backpropogate g sim path n) q).map (fun m => m.children.length) =
          (getAt n q).map (fun m => m.children.length)) := by
  intro q hq
  cases q with
  | nil => exact absurd rfl hq
  | cons j q' =>
    cases n with
    | mk core cs =>
      cases path with
      | nil =>
        refine ⟨fun _ => ?_, fun ht => by simp [isPre] at ht⟩
        rw [getAt_cons, getAt_cons]
        rfl
      | cons i rest =>
        have hbl : getAt (backpropogate g sim (i :: rest) (Node.mk core cs)) (j :: q') =
            (modifyIdx (backpropBelow g sim rest) i cs)[j]?.bind fun c => getAt c q' := by
          rw [show backpropogate g sim (i :: rest) (Node.mk core cs) =
            Node.mk (bpRootCore core) (modifyIdx (backpropBelow g sim rest) i cs)
            from rfl, getAt_mk_cons]
        by_cases hij : i = j
        · subst hij
          have hpre : isPre (i :: q') (i :: rest) = isPre q' rest := by
            simp [isPre]
          cases hc : cs[i]? with
          | none =>
            refine ⟨fun _ => ?_, fun _ => ?_⟩
            · rw [hbl, getAt_mk_cons, getElem?_modifyIdx, if_pos rfl, hc]
              rfl
            · rw [hbl, getAt_mk_cons, getElem?_modifyIdx, if_pos rfl, hc]
              exact ⟨rfl, rfl⟩
          | some c =>
            obtain ⟨ih1, ih2⟩ := backpropBelow_spec g sim rest c q'
            refine ⟨fun hf => ?_, fun ht => ?_⟩
            · rw [hpre] at hf
              rw [hbl, getAt_mk_cons, getElem?_modifyIdx, if_pos rfl, hc]
              simp only [Option.map_some', Option.some_bind]
              exact ih1 hf
            · rw [hpre] at ht
              obtain ⟨e1, e2⟩ := ih2 ht
              constructor
              · rw [hbl, getAt_mk_cons, getElem?_modifyIdx, if_pos rfl, hc]
                simpa using e1
              · rw [hbl, getAt_mk_cons, getElem?_modifyIdx, if_pos rfl, hc]
                simpa using e2
        · have hpre : isPre (j :: q') (i :: rest) = false := by
            simp [isPre]
            intro hji
            exact absurd hji.symm hij
          refine ⟨fun _ => ?_, fun ht => by rw [hpre] at ht; exact Bool.noConfusion ht⟩
          rw [hbl, getAt_mk_cons, getElem?_modifyIdx, if_neg (fun hh => hij hh)]

/-! Scalar effects of expand, one iteration, and the whole loop on the
root. -/

theorem expand_root_scalar (g : Game σ) (ctr : Nat) (path : List Nat)
    (n : Node σ K) :
    (expand g ctr path n).1.visits = n.visits ∧
    (expand g ctr path n).1.value = n.value ∧
    (expand g ctr path n).1.state = n.state := by
  cases path with
  | nil =>
    cases n with
    | mk core cs =>
      simp only [expand]
      split
      · exact ⟨rfl, rfl, rfl⟩
      · exact ⟨rfl, rfl, rfl⟩
  | cons i rest =>
    cases n with
    | mk core cs =>
      simp only [expand]
      split
      · simp
      · simp

theorem select_scalar (g : Game σ) (fo : FloatOps K) (fuel : Nat)
    (n r : Node σ K) (p : List Nat) (h : select g fo fuel n = .ok (r, p)) :
    r.visits = n.visits ∧ r.value = n.value ∧ r.state = n.state ∧
    r.actions_taken = n.actions_taken ∧ r.children.length = n.children.length := by
  have hcore := select_core_root g fo fuel n r p h
  have hinfo := select_info g fo fuel n r p h []
  simp only [getAt_nil, Option.map_some', info] at hinfo
  refine ⟨?_, ?_, ?_, ?_, ?_⟩
  · show r.core.visits = n.core.visits
    rw [hcore]
  · show r.core.value = n.core.value
    rw [hcore]
  · show r.core.state = n.core.state
    rw [hcore]
  · show r.core.actions_taken = n.core.actions_taken
    rw [hcore]
  · exact congrArg (fun x => x.2.2.2.2) (Option.some.inj hinfo)

theorem mctsIteration_root_scalar (g : Game σ) (fo : FloatOps K)
    (sf mf ctr : Nat) (t t' : Node σ K) (ctr' : Nat)
    (h : mctsIteration g fo sf mf ctr t = .ok (t', ctr')) :
    t'.visits = t.visits + 1 ∧ t'.value = t.value := by
  simp only [mctsIteration] at h
  split at h
  · exact Except.noConfusion h
  · rename_i root₁ path hsel
    split at h
    · exact Except.noConfusion h
    · rename_i sim ctr₂ hsim
      obtain ⟨h1, _⟩ := Prod.mk.inj (Except.ok.inj h)
      rw [← h1]
      obtain ⟨hb1, hb2, _⟩ := backpropogate_root_scalar g sim
        (expand g ctr path root₁).2.1 (expand g ctr path root₁).1
      obtain ⟨he1, he2, _⟩ := expand_root_scalar g ctr path root₁
      obtain ⟨hs1, hs2, _⟩ := select_scalar g fo sf t root₁ path hsel
      constructor
      · rw [hb1, he1, hs1]
      · rw [hb2, he2, hs2]

theorem searchLoop_visits (g : Game σ) (fo : FloatOps K)
    (sf mf iterations : Nat) (DEBUG : Bool) :
    ∀ (k ctr : Nat) (t root : Node σ K) (logs logs' : List (DebugRecord K))
      (ctr' : Nat),
      searchLoop g fo sf mf iterations DEBUG k ctr t logs =
        (.ok (root, ctr'), logs') →
      root.visits = t.visits + (k : Int) := by
  intro k
  induction k with
  | zero =>
    intro ctr t root logs logs' ctr' h
    simp only [searchLoop] at h
    obtain ⟨h1, _⟩ := Prod.mk.inj h
    obtain ⟨h2, _⟩ := Prod.mk.inj (Except.ok.inj h1)
    rw [← h2]
    simp
  | succ k ih =>
    intro ctr t root logs logs' ctr' h
    simp only [searchLoop] at h
    split at h
    · obtain ⟨h1, _⟩ := Prod.mk.inj h
      exact Except.noConfusion h1
    · rename_i t₂ ctr₂ hit
      have hrec := ih ctr₂ t₂ root _ logs' ctr' h
      obtain ⟨hv, _⟩ := mctsIteration_root_scalar g fo sf mf ctr t t₂ ctr₂ hit
      rw [hrec, hv]
      push_cast
      ring

/-! Claim C2: the backpropagation contract and the root visit count. -/

/-- C2: backpropagation walks the unbroken parent chain of the expanded
node (here: the path from the root).  The root receives exactly
visits += 1 and no value change (first two conjuncts); every node
strictly below the root on the chain receives exactly
value += update_value(terminal_state), evaluated on its own state, and
visits += 1 (third conjunct); every node off the chain is untouched
(fourth conjunct); and consequently the root's visits count after k
completed iterations of the search loop equals exactly k (last
conjunct). -/
theorem c2_backpropagation_updates_chain (g : Game σ) (fo : FloatOps K) :
    (∀ (sim : σ) (path : List Nat) (root : Node σ K),
      (backpropogate g sim path root).visits = root.visits + 1 ∧
      (backpropogate g sim path root).value = root.value ∧
      (∀ (q : List Nat) (m m' : Node σ K), q ≠ [] → isPre q path = true →
        getAt root q = some m →
        getAt (backpropogate g sim path root) q = some m' →
        m'.visits = m.visits + 1 ∧
        m'.value = m.value + g.update_value m.state sim) ∧
      (∀ q : List Nat, q ≠ [] → isPre q path = false →
        getAt (backpropogate g sim path root) q = getAt root q)) ∧
    (∀ (sf mf iterations : Nat) (DEBUG : Bool) (s₀ : σ) (root : Node σ K)
      (ctr : Nat) (logs : List (DebugRecord K)),
      searchLoop g fo sf mf iterations DEBUG iterations 0 (Node.init s₀) [] =
        (.ok (root, ctr), logs) →
      root.visits = (iterations : Int)) := by
  constructor
  · intro sim path root
    obtain ⟨hv, hval, _⟩ := backpropogate_root_scalar g sim path root
    refine ⟨hv, hval, ?_, ?_⟩
    · intro q m m' hq hpre hm hm'
      obtain ⟨_, hupd⟩ := backpropogate_spec g sim path root q hq
      obtain ⟨e1, _⟩ := hupd hpre
      rw [hm, hm'] at e1
      simp only [Option.map_some'] at e1
      have ecore := Option.some.inj e1
      constructor
      · show m'.core.visits = m.core.visits + 1
        rw [ecore]
        rfl
      · show m'.core.value = m.core.value + g.update_value m.core.state sim
        rw [ecore]
        rfl
    · intro q hq hpre
      exact (backpropogate_spec g sim path root q hq).1 hpre
  · intro sf mf iterations DEBUG s₀ root ctr logs h
    have := searchLoop_visits g fo sf mf iterations DEBUG iterations 0
      (Node.init s₀) root [] logs ctr h
    rw [this]
    simp [Node.init]

/-- Concrete game for loop witnesses: states count up and terminate at 2,
the action taken is one past the maximum excluded action (so it is never
in the exclusion list), every reward is 1, and no state is ever reported
exhausted, so selection never descends and no UCB arithmetic is
performed. -/
def wGame : Game Nat :=
  ⟨fun s => decide (2 ≤ s), fun _ s excl => ((excl.foldr max 0) + 1, s + 1),
   fun _ _ => 1, fun _ _ => false⟩

/-- The root produced by two iterations of the search loop on wGame. -/
def wRoot2 : Node Nat ℚ :=
  .mk ⟨0, 2, 0, 0, [1, 2]⟩ [.mk ⟨1, 1, 1, 0, []⟩ [], .mk ⟨1, 1, 1, 0, []⟩ []]

/-- A concrete tree for the backpropagation witness: a root with one
once-visited child. -/
def wBpTree : Node Nat ℚ := .mk ⟨0, 3, 4, 0, []⟩ [.mk ⟨1, 1, 2, 0, []⟩ []]

/-- The child of wBpTree before backpropagation. -/
def wBpChild : Node Nat ℚ := .mk ⟨1, 1, 2, 0, []⟩ []

/-- The child of wBpTree after one backpropagation pass. -/
def wBpChild' : Node Nat ℚ := .mk ⟨1, 2, 3, 0, []⟩ []

/-- C2 witness: the backpropagation contract evaluated on a concrete tree
and path, and the root visit count evaluated on a concrete two-iteration
run. -/
theorem c2_witness :
    (backpropogate wGame 9 [0] wBpTree).visits = wBpTree.visits + 1 ∧
    (backpropogate wGame 9 [0] wBpTree).value = wBpTree.value ∧
    (wBpChild'.visits = wBpChild.visits + 1 ∧
      wBpChild'.value = wBpChild.value + wGame.update_value wBpChild.state 9) ∧
    getAt (backpropogate wGame 9 [0] wBpTree) [1] = getAt wBpTree [1] ∧
    wRoot2.visits = ((2 : Nat) : Int) := by
  obtain ⟨hbp, hloop⟩ := c2_backpropagation_updates_chain wGame qZeroOps
  obtain ⟨h1, h2, h3, h4⟩ := hbp 9 [0] wBpTree
  refine ⟨h1, h2, ?_, ?_, ?_⟩
  · exact h3 [0] wBpChild wBpChild' (by simp) rfl rfl rfl
  · exact h4 [1] (by simp) rfl
  · exact hloop 3 3 2 false 0 wRoot2 4 [] rfl

/-! The final answer-extraction step of MonteCarloTreeSearch, as a
function of the loop outcome. -/

/-- The value MonteCarloTreeSearch computes from the loop outcome: the
state of the head of the children sorted by descending visits, an
IndexError on an empty child list, or the loop's own abnormal outcome. -/
def finalPhase (x : Except Stuck (Node σ K × Nat)) : Except Stuck σ :=
  match x with
  | .error e => .error e
  | .ok (root, _) =>
    match sortedByVisitsDesc root.children with
    | [] => .error (.py .indexError)
    | m :: _ => .ok m.state

theorem MCTS_result (g : Game σ) (fo : FloatOps K) (sf mf : Nat) (s₀ : σ)
    (iterations : Nat) (DEBUG : Bool) :
    (MonteCarloTreeSearch g fo sf mf s₀ iterations DEBUG).1 =
      finalPhase
        (searchLoop g fo sf mf iterations DEBUG iterations 0 (Node.init s₀) []).1 := by
  simp only [MonteCarloTreeSearch]
  split
  · rename_i e logs heq
    rw [heq]
    rfl
  · rename_i root c logs heq
    rw [heq]
    show _ = finalPhase (Except.ok (root, c))
    simp only [finalPhase]
    cases sortedByVisitsDesc root.children with
    | nil => rfl
    | cons m rest => rfl

/-! Claim C10: debug output does not affect the search. -/

theorem searchLoop_debug_irrelevant (g : Game σ) (fo : FloatOps K)
    (sf mf iterations : Nat) :
    ∀ (k : Nat) (d₁ d₂ : Bool) (ctr : Nat) (t : Node σ K)
      (logs₁ logs₂ : List (DebugRecord K)),
      (searchLoop g fo sf mf iterations d₁ k ctr t logs₁).1 =
        (searchLoop g fo sf mf iterations d₂ k ctr t logs₂).1 := by
  intro k
  induction k with
  | zero =>
    intro d₁ d₂ ctr t logs₁ logs₂
    rfl
  | succ k ih =>
    intro d₁ d₂ ctr t logs₁ logs₂
    simp only [searchLoop]
    cases h : mctsIteration g fo sf mf ctr t with
    | error e => rfl
    | ok rc =>
      obtain ⟨t', ctr'⟩ := rc
      exact ih d₁ d₂ ctr' t' _ _

/-- C10: for every game (hence every fixed randomness source), initial
state, iteration count and fuel, running the search with debug true
yields exactly the same loop outcome from any loop state — the same tree,
counter and abnormal outcome, so the same sequence of tree mutations —
and the same returned value as running it with debug false; the debug
branches only append to the emitted record list and never mutate visits,
value or the tree shape. -/
theorem c10_debug_does_not_affect_search (g : Game σ) (fo : FloatOps K)
    (sf mf : Nat) (s₀ : σ) (iterations : Nat) :
    (∀ (k ctr : Nat) (t : Node σ K) (logs₁ logs₂ : List (DebugRecord K))
      (d₁ d₂ : Bool),
      (searchLoop g fo sf mf iterations d₁ k ctr t logs₁).1 =
        (searchLoop g fo sf mf iterations d₂ k ctr t logs₂).1) ∧
    (MonteCarloTreeSearch g fo sf mf s₀ iterations true).1 =
      (MonteCarloTreeSearch g fo sf mf s₀ iterations false).1 := by
  constructor
  · intro k ctr t logs₁ logs₂ d₁ d₂
    exact searchLoop_debug_irrelevant g fo sf mf iterations k d₁ d₂ ctr t logs₁ logs₂
  · have h := searchLoop_debug_irrelevant g fo sf mf iterations iterations
      true false 0 (Node.init s₀) [] []
    rw [MCTS_result g fo sf mf s₀ iterations true,
      MCTS_result g fo sf mf s₀ iterations false, h]

/-! Claim C4: a terminal initial state. -/

/-- A game whose every state is terminal: the model of calling search on
an already-terminal (zero-legal-action) initial state. -/
def wGameTerm : Game Nat :=
  ⟨fun _ => true, fun _ s _ => (0, s), fun _ _ => 0, fun _ _ => false⟩

theorem simulate_terminated (g : Game σ) (mf ctr : Nat) (s : σ)
    (h : g.terminated s = true) : simulate g mf ctr s = .ok (s, ctr) := by
  cases mf with
  | zero => simp [simulate, h]
  | succ mf => simp [simulate, h]

theorem mctsIteration_terminal (g : Game σ) (fo : FloatOps K) (sf mf ctr : Nat)
    (core : NodeCore σ K) (hterm : g.terminated core.state = true) :
    mctsIteration g fo sf mf ctr (Node.mk core []) =
      .ok (Node.mk (bpRootCore core) [], ctr) := by
  have hsel := select_stop g fo sf (Node.mk core []) (by simp)
  have hsim := simulate_terminated g mf ctr core.state hterm
  simp only [mctsIteration, hsel, expand, Node.state_mk, hterm, if_pos, hsim,
    backpropogate, bpRootCore]

theorem searchLoop_terminal (g : Game σ) (fo : FloatOps K)
    (sf mf iterations : Nat) (DEBUG : Bool) :
    ∀ (k ctr : Nat) (core : NodeCore σ K) (logs : List (DebugRecord K)),
      g.terminated core.state = true →
      ∃ (core' : NodeCore σ K) (logs' : List (DebugRecord K)),
        searchLoop g fo sf mf iterations DEBUG k ctr (Node.mk core []) logs =
          (.ok (Node.mk core' [], ctr), logs') ∧ core'.state = core.state := by
  intro k
  induction k with
  | zero =>
    intro ctr core logs h
    exact ⟨core, logs, rfl, rfl⟩
  | succ k ih =>
    intro ctr core logs h
    have hit := mctsIteration_terminal g fo sf mf ctr core h
    obtain ⟨core', logs', he, hs⟩ := ih ctr (bpRootCore core)
      (if iterations - (k + 1) < 10 && DEBUG then
        logs ++ [debugRecord (iterations - (k + 1)) (Node.mk (bpRootCore core) [])]
       else logs) h
    refine ⟨core', logs', ?_, by rw [hs]; rfl⟩
    simp only [searchLoop, hit]
    exact he

/-- C4 counterexample: on a concrete game whose every state is terminal,
the search does not fail with a documented precondition error — it
completes every iteration without ever expanding the root and then raises
the low-level IndexError of sorted(...)[0] on the empty child list. -/
theorem c4_counterexample :
    (MonteCarloTreeSearch wGameTerm qZeroOps 2 2 0 1 false).1 =
      .error (Stuck.py PyError.indexError) := rfl

/-- C4 as amended: if search is called with an initial_state that is
already terminal, every iteration leaves the root childless, the loop
completes normally (never looping forever, never returning a state), and
the call then fails — but with the low-level IndexError raised by
indexing the empty sorted children list, not with a documented
precondition error. -/
theorem c4_terminal_initial_state_index_error (g : Game σ) (fo : FloatOps K)
    (sf mf iterations : Nat) (DEBUG : Bool) (s₀ : σ)
    (hterm : g.terminated s₀ = true) :
    (MonteCarloTreeSearch g fo sf mf s₀ iterations DEBUG).1 =
      .error (.py .indexError) := by
  obtain ⟨core', logs', he, _⟩ := searchLoop_terminal g fo sf mf iterations DEBUG
    iterations 0 ⟨s₀, 0, 0, 0, []⟩ [] hterm
  rw [MCTS_result]
  have hinit : (Node.init s₀ : Node σ K) = Node.mk ⟨s₀, 0, 0, 0, []⟩ [] := rfl
  rw [hinit, he]
  rfl

/-- C4 witness: the amended statement evaluated on a concrete terminal
game. -/
theorem c4_witness :
    wGameTerm.terminated 0 = true ∧
    (MonteCarloTreeSearch wGameTerm qZeroOps 2 2 0 3 true).1 =
      .error (Stuck.py PyError.indexError) :=
  ⟨rfl, c4_terminal_initial_state_index_error wGameTerm qZeroOps 2 2 3 true 0 rfl⟩

/-! Claim C1: the returned child of the final selection. -/

theorem sorted_head_first_max :
    ∀ (l : List (Node σ K)), l ≠ [] →
      ∃ (j : Nat) (m : Node σ K) (t : List (Node σ K)),
        sortedByVisitsDesc l = m :: t ∧ l[j]? = some m ∧
        (∀ (i : Nat) (ci : Node σ K), l[i]? = some ci → ci.visits ≤ m.visits) ∧
        (∀ (i : Nat) (ci : Node σ K), i < j → l[i]? = some ci →
          ci.visits < m.visits) := by
  intro l
  induction l with
  | nil => intro h; exact absurd rfl h
  | cons x xs ih =>
    intro _
    cases xs with
    | nil =>
      refine ⟨0, x, [], rfl, rfl, ?_, ?_⟩
      · intro i ci hi
        cases i with
        | zero =>
          obtain rfl : x = ci := by simpa using hi
          exact le_refl _
        | succ i => simp at hi
      · intro i ci hi
        omega
    | cons y ys =>
      obtain ⟨j', m', t', hs, hm', hmax', hfirst'⟩ := ih (by simp)
      by_cases hc : m'.visits ≤ x.visits
      · refine ⟨0, x, m' :: t', ?_, rfl, ?_, ?_⟩
        · rw [show sortedByVisitsDesc (x :: y :: ys) =
            insertByVisitsDesc x (sortedByVisitsDesc (y :: ys)) from rfl, hs]
          simp [insertByVisitsDesc, hc]
        · intro i ci hi
          cases i with
          | zero =>
            obtain rfl : x = ci := by simpa using hi
            exact le_refl _
          | succ i =>
            exact le_trans (hmax' i ci (by simpa using hi)) hc
        · intro i ci hi
          omega
      · push_neg at hc
        refine ⟨j' + 1, m', insertByVisitsDesc x t', ?_, by simpa using hm', ?_, ?_⟩
        · rw [show sortedByVisitsDesc (x :: y :: ys) =
            insertByVisitsDesc x (sortedByVisitsDesc (y :: ys)) from rfl, hs]
          simp [insertByVisitsDesc, not_le.mpr hc]
        · intro i ci hi
          cases i with
          | zero =>
            obtain rfl : x = ci := by simpa using hi
            exact le_of_lt hc
          | succ i => exact hmax' i ci (by simpa using hi)
        · intro i ci hlt hi
          cases i with
          | zero =>
            obtain rfl : x = ci := by simpa using hi
            exact hc
          | succ i => exact hfirst' i ci (by omega) (by simpa using hi)

theorem firstArgmaxVisitsGo_spec :
    ∀ (rest : List (Node σ K)) (idx b : Nat) (bv : Int),
      (firstArgmaxVisitsGo idx b bv rest = b ∧
        ∀ (i : Nat) (ci : Node σ K), rest[i]? = some ci → ci.visits ≤ bv) ∨
      (∃ (k : Nat) (ck : Node σ K), rest[k]? = some ck ∧
        firstArgmaxVisitsGo idx b bv rest = idx + k ∧
        bv < ck.visits ∧
        (∀ (i : Nat) (ci : Node σ K), rest[i]? = some ci →
          ci.visits ≤ ck.visits) ∧
        (∀ (i : Nat) (ci : Node σ K), i < k → rest[i]? = some ci →
          ci.visits < ck.visits)) := by
  intro rest
  induction rest with
  | nil =>
    intro idx b bv
    left
    refine ⟨rfl, ?_⟩
    intro i ci h
    simp at h
  | cons c rest ih =>
    intro idx b bv
    by_cases hc : bv < c.visits
    · have hbf : firstArgmaxVisitsGo idx b bv (c :: rest) =
          firstArgmaxVisitsGo (idx + 1) idx c.visits rest := by
        simp [firstArgmaxVisitsGo, hc]
      rcases ih (idx + 1) idx c.visits with ⟨he, hall⟩ |
        ⟨k, ck, hk, he, hbu, hall, hfirst⟩
      · right
        refine ⟨0, c, by simp, by rw [hbf, he]; omega, hc, ?_, ?_⟩
        · intro i ci hi
          cases i with
          | zero =>
            obtain rfl : c = ci := by simpa using hi
            exact le_refl _
          | succ i => exact hall i ci (by simpa using hi)
        · intro i ci hlt
          omega
      · right
        refine ⟨k + 1, ck, by simpa using hk, by rw [hbf, he]; omega,
          lt_trans hc hbu, ?_, ?_⟩
        · intro i ci hi
          cases i with
          | zero =>
            obtain rfl : c = ci := by simpa using hi
            exact le_of_lt hbu
          | succ i => exact hall i ci (by simpa using hi)
        · intro i ci hlt hi
          cases i with
          | zero =>
            obtain rfl : c = ci := by simpa using hi
            exact hbu
          | succ i => exact hfirst i ci (by omega) (by simpa using hi)
    · have hbf : firstArgmaxVisitsGo idx b bv (c :: rest) =
          firstArgmaxVisitsGo (idx + 1) b bv rest := by
        simp [firstArgmaxVisitsGo, hc]
      rcases ih (idx + 1) b bv with ⟨he, hall⟩ | ⟨k, ck, hk, he, hbu, hall, hfirst⟩
      · left
        refine ⟨by rw [hbf, he], ?_⟩
        intro i ci hi
        cases i with
        | zero =>
          obtain rfl : c = ci := by simpa using hi
          exact not_lt.mp hc
        | succ i => exact hall i ci (by simpa using hi)
      · right
        refine ⟨k + 1, ck, by simpa using hk, by rw [hbf, he]; omega, hbu, ?_, ?_⟩
        · intro i ci hi
          cases i with
          | zero =>
            obtain rfl : c = ci := by simpa using hi
            exact le_of_lt (lt_of_le_of_lt (not_lt.mp hc) hbu)
          | succ i => exact hall i ci (by simpa using hi)
        · intro i ci hlt hi
          cases i with
          | zero =>
            obtain rfl : c = ci := by simpa using hi
            exact lt_of_le_of_lt (not_lt.mp hc) hbu
          | succ i => exact hfirst i ci (by omega) (by simpa using hi)

theorem firstArgmaxVisits_spec (l : List (Node σ K)) (hne : l ≠ []) :
    ∃ m : Node σ K, l[firstArgmaxVisits l]? = some m ∧
      (∀ (i : Nat) (ci : Node σ K), l[i]? = some ci → ci.visits ≤ m.visits) ∧
      (∀ (i : Nat) (ci : Node σ K), i < firstArgmaxVisits l → l[i]? = some ci →
        ci.visits < m.visits) := by
  cases l with
  | nil => exact absurd rfl hne
  | cons x xs =>
    have hdef : firstArgmaxVisits (x :: xs) = firstArgmaxVisitsGo 1 0 x.visits xs := rfl
    rcases firstArgmaxVisitsGo_spec xs 1 0 x.visits with ⟨he, hall⟩ |
      ⟨k, ck, hk, he, hbu, hall, hfirst⟩
    · refine ⟨x, by rw [hdef, he]; simp, ?_, ?_⟩
      · intro i ci hi
        cases i with
        | zero =>
          obtain rfl : x = ci := by simpa using hi
          exact le_refl _
        | succ i => exact hall i ci (by simpa using hi)
      · intro i ci hlt hi
        rw [hdef, he] at hlt
        omega
    · have hj : firstArgmaxVisits (x :: xs) = k + 1 := by rw [hdef, he]; omega
      refine ⟨ck, by rw [hj]; simpa using hk, ?_, ?_⟩
      · intro i ci hi
        cases i with
        | zero =>
          obtain rfl : x = ci := by simpa using hi
          exact le_of_lt hbu
        | succ i => exact hall i ci (by simpa using hi)
      · intro i ci hlt hi
        rw [hj] at hlt
        cases i with
        | zero =>
          obtain rfl : x = ci := by simpa using hi
          exact hbu
        | succ i => exact hfirst i ci (by omega) (by simpa using hi)

theorem first_max_unique (l : List (Node σ K)) (j₁ j₂ : Nat)
    (m₁ m₂ : Node σ K) (h₁ : l[j₁]? = some m₁) (h₂ : l[j₂]? = some m₂)
    (hmax₁ : ∀ (i : Nat) (ci : Node σ K), l[i]? = some ci → ci.visits ≤ m₁.visits)
    (hmax₂ : ∀ (i : Nat) (ci : Node σ K), l[i]? = some ci → ci.visits ≤ m₂.visits)
    (hfirst₁ : ∀ (i : Nat) (ci : Node σ K), i < j₁ → l[i]? = some ci →
      ci.visits < m₁.visits)
    (hfirst₂ : ∀ (i : Nat) (ci : Node σ K), i < j₂ → l[i]? = some ci →
      ci.visits < m₂.visits) :
    j₁ = j₂ := by
  rcases lt_trichotomy j₁ j₂ with hlt | heq | hgt
  · have h := hfirst₂ j₁ m₁ hlt h₁
    have h' := hmax₁ j₂ m₂ h₂
    omega
  · exact heq
  · have h := hfirst₁ j₂ m₂ hgt h₂
    have h' := hmax₂ j₁ m₁ h₁
    omega

theorem expand_root_children_le (g : Game σ) (ctr : Nat) (path : List Nat)
    (n : Node σ K) :
    n.children.length ≤ (expand g ctr path n).1.children.length := by
  cases path with
  | nil =>
    cases n with
    | mk core cs =>
      simp only [expand]
      split
      · exact le_refl _
      · simp
  | cons i rest =>
    cases n with
    | mk core cs =>
      simp only [expand]
      split
      · simp
      · exact le_refl _

theorem mctsIteration_children_le (g : Game σ) (fo : FloatOps K)
    (sf mf ctr : Nat) (t t' : Node σ K) (ctr' : Nat)
    (h : mctsIteration g fo sf mf ctr t = .ok (t', ctr')) :
    t.children.length ≤ t'.children.length := by
  simp only [mctsIteration] at h
  split at h
  · exact Except.noConfusion h
  · rename_i root₁ path hsel
    split at h
    · exact Except.noConfusion h
    · rename_i sim ctr₂ hsim
      obtain ⟨h1, _⟩ := Prod.mk.inj (Except.ok.inj h)
      rw [← h1]
      have hb := (backpropogate_root_scalar g sim (expand g ctr path root₁).2.1
        (expand g ctr path root₁).1).2.2.2.2
      rw [hb]
      have he := expand_root_children_le g ctr path root₁
      have hs := (select_scalar g fo sf t root₁ path hsel).2.2.2.2
      omega

theorem searchLoop_children_le (g : Game σ) (fo : FloatOps K)
    (sf mf iterations : Nat) (DEBUG : Bool) :
    ∀ (k ctr : Nat) (t root : Node σ K) (logs logs' : List (DebugRecord K))
      (ctr' : Nat),
      searchLoop g fo sf mf iterations DEBUG k ctr t logs =
        (.ok (root, ctr'), logs') →
      t.children.length ≤ root.children.length := by
  intro k
  induction k with
  | zero =>
    intro ctr t root logs logs' ctr' h
    simp only [searchLoop] at h
    obtain ⟨h1, _⟩ := Prod.mk.inj h
    obtain ⟨h2, _⟩ := Prod.mk.inj (Except.ok.inj h1)
    rw [← h2]
  | succ k ih =>
    intro ctr t root logs logs' ctr' h
    simp only [searchLoop] at h
    split at h
    · obtain ⟨h1, _⟩ := Prod.mk.inj h
      exact Except.noConfusion h1
    · rename_i t₂ ctr₂ hit
      have h1 := mctsIteration_children_le g fo sf mf ctr t t₂ ctr₂ hit
      have h2 := ih ctr₂ t₂ root _ logs' ctr' h
      omega

theorem mctsIteration_fresh (g : Game σ) (fo : FloatOps K) (sf mf ctr : Nat)
    (core : NodeCore σ K) (hterm : g.terminated core.state = false)
    (t' : Node σ K) (ctr' : Nat)
    (h : mctsIteration g fo sf mf ctr (Node.mk core []) = .ok (t', ctr')) :
    0 < t'.children.length := by
  have hsel := select_stop g fo sf (Node.mk core []) (by simp)
  simp only [mctsIteration, hsel, expand, Node.state_mk, hterm] at h
  split at h
  · exact Except.noConfusion h
  · rename_i sim ctr₂ hsim
    obtain ⟨h1, _⟩ := Prod.mk.inj (Except.ok.inj h)
    rw [← h1]
    rw [(backpropogate_root_scalar g sim _ _).2.2.2.2]
    simp

theorem searchLoop_children_pos (g : Game σ) (fo : FloatOps K)
    (sf mf iterations : Nat) (DEBUG : Bool) (s₀ : σ)
    (hiter : 1 ≤ iterations) (hterm : g.terminated s₀ = false)
    (root : Node σ K) (ctr : Nat) (logs : List (DebugRecord K))
    (h : searchLoop g fo sf mf iterations DEBUG iterations 0 (Node.init s₀) [] =
      (.ok (root, ctr), logs)) :
    0 < root.children.length := by
  cases iterations with
  | zero => omega
  | succ k =>
    simp only [searchLoop] at h
    split at h
    · obtain ⟨h1, _⟩ := Prod.mk.inj h
      exact Except.noConfusion h1
    · rename_i t₁ ctr₁ hit
      have h1 := mctsIteration_fresh g fo sf mf 0 ⟨s₀, 0, 0, 0, []⟩ hterm t₁ ctr₁ hit
      have h2 := searchLoop_children_le g fo sf mf (k + 1) DEBUG k ctr₁ t₁ root
        _ logs ctr h
      omega

/-- C1: for every search call with iterations >= 1 on a non-terminal
initial state whose loop completes, the value returned by
MonteCarloTreeSearch is the state of the root's immediate child at the
first index attaining the maximum visits count: that index is valid, the
returned value is exactly that child's state, no child has more visits,
and every earlier child in insertion (expansion) order has strictly fewer
visits — so ties in the maximum keep the first-expanded child, as the
stable descending sort of sorted(..., reverse=True)[0] does. -/
theorem c1_returns_first_most_visited_child (g : Game σ) (fo : FloatOps K)
    (sf mf iterations : Nat) (DEBUG : Bool) (s₀ : σ) (root : Node σ K)
    (ctr : Nat) (logs : List (DebugRecord K))
    (hiter : 1 ≤ iterations) (hterm : g.terminated s₀ = false)
    (hloop : searchLoop g fo sf mf iterations DEBUG iterations 0
      (Node.init s₀) [] = (.ok (root, ctr), logs)) :
    firstArgmaxVisits root.children < root.children.length ∧
    (MonteCarloTreeSearch g fo sf mf s₀ iterations DEBUG).1 =
      .ok ((root.children.getD (firstArgmaxVisits root.children)
        (Node.init s₀)).state) ∧
    (∀ i : Nat, i < root.children.length →
      (root.children.getD i (Node.init s₀)).visits ≤
        (root.children.getD (firstArgmaxVisits root.children)
          (Node.init s₀)).visits) ∧
    (∀ i : Nat, i < firstArgmaxVisits root.children →
      (root.children.getD i (Node.init s₀)).visits <
        (root.children.getD (firstArgmaxVisits root.children)
          (Node.init s₀)).visits) := by
  have hpos := searchLoop_children_pos g fo sf mf iterations DEBUG s₀ hiter hterm
    root ctr logs hloop
  have hne : root.children ≠ [] := List.length_pos_iff_ne_nil.mp hpos
  obtain ⟨j, m, t, hsort, hjm, hmax, hfirst⟩ := sorted_head_first_max root.children hne
  obtain ⟨m', hm', hmax', hfirst'⟩ := firstArgmaxVisits_spec root.children hne
  have hjeq : j = firstArgmaxVisits root.children :=
    first_max_unique root.children j (firstArgmaxVisits root.children) m m'
      hjm hm' hmax hmax' hfirst hfirst'
  have hmm : m = m' := by
    rw [hjeq] at hjm
    rw [hjm] at hm'
    exact Option.some.inj hm'
  have hflen : firstArgmaxVisits root.children < root.children.length := by
    have := (List.getElem?_eq_some_iff.mp hm').1
    exact this
  have hgdm : root.children.getD (firstArgmaxVisits root.children) (Node.init s₀)
      = m' := by
    rw [List.getD_eq_getElem?_getD, hm']
    rfl
  have hgd : ∀ i : Nat, i < root.children.length →
      root.children[i]? = some (root.children.getD i (Node.init s₀)) := by
    intro i hi
    rw [List.getElem?_eq_getElem hi, List.getD_eq_getElem root.children _ hi]
  refine ⟨hflen, ?_, ?_, ?_⟩
  · rw [MCTS_result, congrArg Prod.fst hloop]
    simp only [finalPhase]
    rw [hsort, hgdm, hmm]
  · intro i hi
    rw [hgdm]
    exact hmax' i (root.children.getD i (Node.init s₀)) (hgd i hi)
  · intro i hi
    rw [hgdm]
    have hilen : i < root.children.length := lt_trans hi hflen
    exact hfirst' i (root.children.getD i (Node.init s₀)) hi (hgd i hilen)

/-- C1 witness: the final-selection statement evaluated on a concrete
two-iteration run whose two children tie at one visit each, so the first
child in insertion order is returned. -/
theorem c1_witness :
    firstArgmaxVisits wRoot2.children < wRoot2.children.length ∧
    (MonteCarloTreeSearch wGame qZeroOps 3 3 0 2 false).1 =
      .ok ((wRoot2.children.getD (firstArgmaxVisits wRoot2.children)
        (Node.init 0)).state) ∧
    (wRoot2.children.getD 1 (Node.init 0)).visits ≤
      (wRoot2.children.getD (firstArgmaxVisits wRoot2.children)
        (Node.init 0)).visits := by
  obtain ⟨a, b, c, d⟩ := c1_returns_first_most_visited_child wGame qZeroOps
    3 3 2 false 0 wRoot2 4 [] (by omega) rfl rfl
  exact ⟨a, b, c 1 (by decide)⟩

/-! Claim C8: the children/actions_taken invariant. -/

/-- A property of the child count and actions_taken list, required at
every node of the tree. -/
def TreeInv (P : Nat → List Int → Prop) (n : Node σ K) : Prop :=
  ∀ (q : List Nat) (m : Node σ K), getAt n q = some m →
    P m.children.length m.actions_taken

theorem TreeInv_init (P : Nat → List Int → Prop) (hP0 : P 0 []) (s : σ) :
    TreeInv P (Node.init s : Node σ K) := by
  intro q m hm
  cases q with
  | nil =>
    obtain rfl : (Node.init s : Node σ K) = m := Option.some.inj hm
    simpa [Node.init] using hP0
  | cons i rest =>
    rw [show (Node.init s : Node σ K) = Node.mk ⟨s, 0, 0, 0, []⟩ [] from rfl,
      getAt_mk_cons] at hm
    simp at hm

theorem TreeInv_child (P : Nat → List Int → Prop) (n : Node σ K) (i : Nat)
    (c : Node σ K) (hn : TreeInv P n) (hc : n.children[i]? = some c) :
    TreeInv P c := by
  intro q m hm
  refine hn (i :: q) m ?_
  rw [getAt_cons, hc]
  simpa using hm

theorem select_TreeInv (P : Nat → List Int → Prop) (g : Game σ)
    (fo : FloatOps K) (fuel : Nat) (n r : Node σ K) (p : List Nat)
    (h : select g fo fuel n = .ok (r, p)) (hn : TreeInv P n) : TreeInv P r := by
  intro q m hm
  have hinfo := select_info g fo fuel n r p h q
  rw [hm] at hinfo
  cases hn' : getAt n q with
  | none => rw [hn'] at hinfo; exact Option.noConfusion hinfo
  | some m₀ =>
    rw [hn'] at hinfo
    have he : info m = info m₀ := Option.some.inj hinfo
    have hlen : m.children.length = m₀.children.length :=
      congrArg (fun x => x.2.2.2.2) he
    have hact : m.actions_taken = m₀.actions_taken :=
      congrArg (fun x => x.2.2.2.1) he
    rw [hlen, hact]
    exact hn q m₀ hn'

theorem backpropogate_TreeInv (P : Nat → List Int → Prop) (g : Game σ)
    (sim : σ) (path : List Nat) (n : Node σ K) (hn : TreeInv P n) :
    TreeInv P (backpropogate g sim path n) := by
  intro q m hm
  cases q with
  | nil =>
    obtain rfl : backpropogate g sim path n = m := Option.some.inj hm
    obtain ⟨_, _, _, hact, hlen⟩ := backpropogate_root_scalar g sim path n
    rw [hact, hlen]
    exact hn [] n rfl
  | cons j q' =>
    obtain ⟨hoff, hon⟩ := backpropogate_spec g sim path n (j :: q') (by simp)
    by_cases hp : isPre (j :: q') path = true
    · obtain ⟨e1, e2⟩ := hon hp
      rw [hm] at e1 e2
      cases hn' : getAt n (j :: q') with
      | none => rw [hn'] at e1; exact Option.noConfusion e1
      | some m₀ =>
        rw [hn'] at e1 e2
        simp only [Option.map_some'] at e1 e2
        have hc : m.core = bpCore g sim m₀.core := Option.some.inj e1
        have hl : m.children.length = m₀.children.length := Option.some.inj e2
        have hact : m.actions_taken = m₀.actions_taken := by
          show m.core.actions_taken = m₀.core.actions_taken
          rw [hc]
          rfl
        rw [hl, hact]
        exact hn (j :: q') m₀ hn'
    · have hp' : isPre (j :: q') path = false := by simpa using hp
      rw [hoff hp'] at hm
      exact hn (j :: q') m hm

theorem expand_TreeInv (P : Nat → List Int → Prop) (g : Game σ)
    (hP0 : P 0 [])
    (hPstep : ∀ (k : Nat) (acts : List Int) (c : Nat) (s : σ),
      P k acts → P (k + 1) (acts ++ [(g.random_action c s acts).1])) :
    ∀ (path : List Nat) (ctr : Nat) (n : Node σ K), TreeInv P n →
      TreeInv (K := K) P (expand g ctr path n).1 := by
  intro path
  induction path with
  | nil =>
    intro ctr n hn q m hm
    cases n with
    | mk core cs =>
      by_cases hterm : g.terminated core.state = true
      · rw [show (expand g ctr [] (Node.mk core cs)).1 = Node.mk core cs from by
          simp [expand, hterm]] at hm
        exact hn q m hm
      · rw [show (expand g ctr [] (Node.mk core cs)).1 =
            Node.mk { core with actions_taken := core.actions_taken ++
                [(g.random_action ctr core.state core.actions_taken).1] }
              (cs ++ [Node.init (g.random_action ctr core.state
                core.actions_taken).2]) from by
          simp [expand, hterm]] at hm
        cases q with
        | nil =>
          obtain rfl := (Option.some.inj hm).symm
          have hbase : P cs.length core.actions_taken := by
            have := hn [] (Node.mk core cs) rfl
            simpa using this
          have := hPstep cs.length core.actions_taken ctr core.state hbase
          simpa using this
        | cons i q' =>
          rw [getAt_mk_cons] at hm
          by_cases hi : i < cs.length
          · rw [List.getElem?_append_left hi] at hm
            refine hn (i :: q') m ?_
            rw [getAt_mk_cons]
            exact hm
          · rw [List.getElem?_append_right (by omega)] at hm
            by_cases hieq : i = cs.length
            · subst hieq
              simp only [Nat.sub_self] at hm
              rw [show ([Node.init (g.random_action ctr core.state
                  core.actions_taken).2] : List (Node σ K))[0]? =
                some (Node.init (g.random_action ctr core.state
                  core.actions_taken).2) from rfl] at hm
              simp only [Option.some_bind] at hm
              cases q' with
              | nil =>
                obtain rfl := (Option.some.inj hm).symm
                simpa [Node.init] using hP0
              | cons i'' q'' =>
                rw [show (Node.init (g.random_action ctr core.state
                    core.actions_taken).2 : Node σ K) =
                  Node.mk ⟨(g.random_action ctr core.state
                    core.actions_taken).2, 0, 0, 0, []⟩ [] from rfl,
                  getAt_mk_cons] at hm
                simp at hm
            · have : 1 ≤ i - cs.length := by omega
              rw [show ([Node.init (g.random_action ctr core.state
                  core.actions_taken).2] : List (Node σ K))[i - cs.length]? =
                none from by
                  rw [List.getElem?_eq_none]
                  simpa using this] at hm
              simp at hm
  | cons i rest ih =>
    intro ctr n hn q m hm
    cases n with
    | mk core cs =>
      cases hc : cs[i]? with
      | none =>
        rw [show (expand g ctr (i :: rest) (Node.mk core cs)).1 =
            Node.mk core cs from by simp [expand, hc]] at hm
        exact hn q m hm
      | some c =>
        rw [show (expand g ctr (i :: rest) (Node.mk core cs)).1 =
            Node.mk core (modifyIdx (fun _ => (expand g ctr rest c).1) i cs)
            from by simp [expand, hc, Node.setChildren]] at hm
        cases q with
        | nil =>
          obtain rfl := (Option.some.inj hm).symm
          have := hn [] (Node.mk core cs) rfl
          simpa using this
        | cons j q' =>
          rw [getAt_mk_cons, getElem?_modifyIdx] at hm
          by_cases hij : i = j
          · rw [if_pos hij] at hm
            subst hij
            rw [hc] at hm
            simp only [Option.map_some', Option.some_bind] at hm
            exact ih ctr c (TreeInv_child P (Node.mk core cs) i c hn
              (by simpa using hc)) q' m hm
          · rw [if_neg hij] at hm
            refine hn (j :: q') m ?_
            rw [getAt_mk_cons]
            exact hm

theorem mctsIteration_TreeInv (P : Nat → List Int → Prop) (g : Game σ)
    (fo : FloatOps K) (hP0 : P 0 [])
    (hPstep : ∀ (k : Nat) (acts : List Int) (c : Nat) (s : σ),
      P k acts → P (k + 1) (acts ++ [(g.random_action c s acts).1]))
    (sf mf ctr : Nat) (t t' : Node σ K) (ctr' : Nat)
    (h : mctsIteration g fo sf mf ctr t = .ok (t', ctr')) (hn : TreeInv P t) :
    TreeInv P t' := by
  simp only [mctsIteration] at h
  split at h
  · exact Except.noConfusion h
  · rename_i root₁ path hsel
    split at h
    · exact Except.noConfusion h
    · rename_i sim ctr₂ hsim
      obtain ⟨h1, _⟩ := Prod.mk.inj (Except.ok.inj h)
      rw [← h1]
      exact backpropogate_TreeInv P g sim _ _
        (expand_TreeInv P g hP0 hPstep path ctr root₁
          (select_TreeInv P g fo sf t root₁ path hsel hn))

theorem searchLoop_TreeInv (P : Nat → List Int → Prop) (g : Game σ)
    (fo : FloatOps K) (hP0 : P 0 [])
    (hPstep : ∀ (k : Nat) (acts : List Int) (c : Nat) (s : σ),
      P k acts → P (k + 1) (acts ++ [(g.random_action c s acts).1]))
    (sf mf iterations : Nat) (DEBUG : Bool) :
    ∀ (k ctr : Nat) (t root : Node σ K) (logs logs' : List (DebugRecord K))
      (ctr' : Nat),
      searchLoop g fo sf mf iterations DEBUG k ctr t logs =
        (.ok (root, ctr'), logs') →
      TreeInv P t → TreeInv P root := by
  intro k
  induction k with
  | zero =>
    intro ctr t root logs logs' ctr' h hn
    simp only [searchLoop] at h
    obtain ⟨h1, _⟩ := Prod.mk.inj h
    obtain ⟨h2, _⟩ := Prod.mk.inj (Except.ok.inj h1)
    rw [← h2]
    exact hn
  | succ k ih =>
    intro ctr t root logs logs' ctr' h hn
    simp only [searchLoop] at h
    split at h
    · obtain ⟨h1, _⟩ := Prod.mk.inj h
      exact Except.noConfusion h1
    · rename_i t₂ ctr₂ hit
      exact ih ctr₂ t₂ root _ logs' ctr' h
        (mctsIteration_TreeInv P g fo hP0 hPstep sf mf ctr t t₂ ctr₂ hit hn)

/-- C8: after any number of completed iterations, every reachable node N
of the tree satisfies len(N.children) == len(N.actions_taken) (first
conjunct, unconditionally), and, assuming every State implementation
honors the random_action exclusion contract — the returned action id is
never in the excluded list — no two entries of N.actions_taken are equal
(second conjunct). -/
theorem c8_children_match_actions (g : Game σ) (fo : FloatOps K)
    (sf mf iterations : Nat) (DEBUG : Bool) (s₀ : σ) :
    (∀ (root : Node σ K) (ctr : Nat) (logs : List (DebugRecord K)),
      searchLoop g fo sf mf iterations DEBUG iterations 0 (Node.init s₀) [] =
        (.ok (root, ctr), logs) →
      ∀ (q : List Nat) (m : Node σ K), getAt root q = some m →
        m.children.length = m.actions_taken.length) ∧
    ((∀ (c : Nat) (s : σ) (excl : List Int), (g.random_action c s excl).1 ∉ excl) →
      ∀ (root : Node σ K) (ctr : Nat) (logs : List (DebugRecord K)),
      searchLoop g fo sf mf iterations DEBUG iterations 0 (Node.init s₀) [] =
        (.ok (root, ctr), logs) →
      ∀ (q : List Nat) (m : Node σ K), getAt root q = some m →
        m.actions_taken.Nodup) := by
  constructor
  · intro root ctr logs h q m hm
    refine searchLoop_TreeInv (fun k acts => k = acts.length) g fo rfl
      ?_ sf mf iterations DEBUG iterations 0 (Node.init s₀) root [] logs ctr h
      (TreeInv_init _ rfl s₀) q m hm
    intro k acts c s hk
    simp [hk]
  · intro hcontract root ctr logs h q m hm
    refine searchLoop_TreeInv (fun _ acts => acts.Nodup) g fo List.nodup_nil
      ?_ sf mf iterations DEBUG iterations 0 (Node.init s₀) root [] logs ctr h
      (TreeInv_init _ List.nodup_nil s₀) q m hm
    intro k acts c s hk
    simp [List.nodup_append, hk, hcontract c s acts]

theorem le_foldr_max : ∀ (l : List Int) (a x : Int), x ∈ l → x ≤ l.foldr max a
  | [], _, _, h => absurd h (List.not_mem_nil _)
  | y :: ys, a, x, h => by
    rcases List.mem_cons.mp h with rfl | h'
    · exact le_max_left _ _
    · exact le_trans (le_foldr_max ys a x h') (le_max_right _ _)

/-- The concrete witness game honors the random_action exclusion
contract: it returns one past the maximum excluded action. -/
theorem wGame_contract : ∀ (c s : Nat) (excl : List Int),
    (wGame.random_action c s excl).1 ∉ excl := by
  intro c s excl hmem
  have hle := le_foldr_max excl 0 (excl.foldr max 0 + 1) hmem
  omega

/-- C8 witness: the invariant evaluated at the root of a concrete
two-iteration run, whose two recorded actions 1 and 2 are distinct and
match its two children. -/
theorem c8_witness :
    wRoot2.children.length = wRoot2.actions_taken.length ∧
    wRoot2.actions_taken.Nodup := by
  obtain ⟨h1, h2⟩ := c8_children_match_actions wGame qZeroOps 3 3 2 false 0
  exact ⟨h1 wRoot2 4 [] rfl [] wRoot2 rfl,
    h2 wGame_contract wRoot2 4 [] rfl [] wRoot2 rfl⟩

/-! Claim C9: the UCB computation is never applied to zero visit
counts in any reachable execution of the search loop. -/

/-- Visit-count invariant of loop-reachable trees: the root's count is
non-negative and at least 1 once it has a child, and every node strictly
below the root has at least one visit. -/
def VisitsInv (n : Node σ K) : Prop :=
  0 ≤ n.visits ∧ (0 < n.children.length → 1 ≤ n.visits) ∧
  (∀ (q : List Nat) (m : Node σ K), q ≠ [] → getAt n q = some m → 1 ≤ m.visits)

theorem VisitsInv_init (s : σ) : VisitsInv (Node.init s : Node σ K) := by
  refine ⟨by simp [Node.init], by simp [Node.init], ?_⟩
  intro q m hq hm
  cases q with
  | nil => exact absurd rfl hq
  | cons i rest =>
    rw [show (Node.init s : Node σ K) = Node.mk ⟨s, 0, 0, 0, []⟩ [] from rfl,
      getAt_mk_cons] at hm
    simp at hm

theorem isPre_refl : ∀ (q : List Nat), isPre q q = true
  | [] => rfl
  | a :: as => by simp [isPre, isPre_refl as]

theorem getAt_child (n : Node σ K) (i : Nat) (c : Node σ K)
    (h : n.children[i]? = some c) : getAt n [i] = some c := by
  rw [getAt_cons, h]
  rfl

theorem getAt_child_path (n : Node σ K) (i : Nat) (c : Node σ K)
    (h : n.children[i]? = some c) (q : List Nat) :
    getAt n (i :: q) = getAt c q := by
  rw [getAt_cons, h]
  rfl

theorem calc_UCB_run_ok_of (fo : FloatOps K)
    (hlog : ∀ x : K, 1 ≤ x → 0 ≤ fo.log x) (child parent : Node σ K) (c : K)
    (hc : 1 ≤ child.visits) (hp : 1 ≤ parent.visits) :
    ∃ u, calc_UCB_run fo child parent c = .ok u := by
  have h1 : (1 : K) ≤ (parent.visits : K) := by exact_mod_cast hp
  have h2 : (0 : K) ≤ (child.visits : K) := by
    exact_mod_cast le_trans (by omega : (0 : Int) ≤ 1) hc
  refine ⟨calc_UCB fo child parent c, ?_⟩
  unfold calc_UCB_run
  rw [if_neg (by omega), if_neg (by omega),
    if_neg (not_lt.mpr (div_nonneg (hlog _ h1) h2))]

theorem scoreLoop_total (fo : FloatOps K) (parent : Node σ K) :
    ∀ (rest : List (Node σ K)) (idx : Nat) (acc : List (Node σ K)) (b : Nat)
      (bu : K),
      (∀ c ∈ rest, ∃ u, calc_UCB_run fo c parent (fo.sqrt 2) = .ok u) →
      ∃ res, scoreLoop fo parent rest idx acc b bu = .ok res := by
  intro rest
  induction rest with
  | nil =>
    intro idx acc b bu _
    exact ⟨_, rfl⟩
  | cons c rest ih =>
    intro idx acc b bu h
    obtain ⟨u, hu⟩ := h c (by simp)
    simp only [scoreLoop, hu]
    by_cases hcmp : bu < u
    · rw [if_pos hcmp]
      exact ih _ _ _ _ fun d hd => h d (by simp [hd])
    · rw [if_neg hcmp]
      exact ih _ _ _ _ fun d hd => h d (by simp [hd])

theorem scoreChildren_total (fo : FloatOps K) (parent : Node σ K)
    (cs : List (Node σ K))
    (h : ∀ c ∈ cs, ∃ u, calc_UCB_run fo c parent (fo.sqrt 2) = .ok u) :
    ∃ res, scoreChildren fo parent cs = .ok res := by
  cases cs with
  | nil => exact ⟨([], 0), rfl⟩
  | cons c rest =>
    obtain ⟨u, hu⟩ := h c (by simp)
    simp only [scoreChildren, hu]
    exact scoreLoop_total fo parent rest 1 [c.setUcb u] 0 u
      fun d hd => h d (by simp [hd])

theorem VisitsInv_scored_child (fo : FloatOps K) (n : Node σ K)
    (cs' : List (Node σ K)) (j : Nat) (cj : Node σ K)
    (hv : VisitsInv n) (hcj : n.children[j]? = some cj)
    (hcs' : cs' = n.children.map (fun c => c.setUcb (ucbOf fo n c))) :
    VisitsInv (cs'.getD j n) := by
  have hgd : cs'.getD j n = cj.setUcb (ucbOf fo n cj) := by
    rw [List.getD_eq_getElem?_getD, hcs', List.getElem?_map, hcj]
    rfl
  have hcjv : 1 ≤ cj.visits := hv.2.2 [j] cj (by simp) (getAt_child n j cj hcj)
  rw [hgd]
  refine ⟨by simpa using le_trans (by omega : (0 : Int) ≤ 1) hcjv,
    by simpa using fun _ => hcjv, ?_⟩
  intro q m hq hm
  rw [getAt_setUcb _ _ _ hq] at hm
  refine hv.2.2 (j :: q) m (by simp) ?_
  rw [getAt_child_path n j cj hcj]
  exact hm

theorem select_no_py (g : Game σ) (fo : FloatOps K)
    (hlog : ∀ x : K, 1 ≤ x → 0 ≤ fo.log x) :
    ∀ (fuel : Nat) (n : Node σ K), VisitsInv n →
      ∀ (e : PyError), select g fo fuel n ≠ .error (.py e) := by
  intro fuel
  induction fuel with
  | zero =>
    intro n hv e h
    simp only [select] at h
    split at h
    · exact Stuck.noConfusion (Except.error.inj h)
    · exact Except.noConfusion h
  | succ fuel ih =>
    intro n hv e h
    simp only [select] at h
    split at h
    · rename_i hguard
      have hruns : ∀ c ∈ n.children,
          ∃ u, calc_UCB_run fo c n (fo.sqrt 2) = .ok u := by
        intro c hcmem
        obtain ⟨i, hi⟩ := List.getElem?_of_mem hcmem
        exact calc_UCB_run_ok_of fo hlog c n _
          (hv.2.2 [i] c (by simp) (getAt_child n i c hi)) (hv.2.1 hguard.1)
      split at h
      · rename_i e'' hsc
        obtain ⟨res, htot⟩ := scoreChildren_total fo n n.children hruns
        rw [htot] at hsc
        exact Except.noConfusion hsc
      · rename_i cs' j hsc
        split at h
        · rename_i e' hsel'
          have he' : e' = .py e := Except.error.inj h
          rw [he'] at hsel'
          have hne : n.children ≠ [] := List.length_pos_iff_ne_nil.mp hguard.1
          obtain ⟨_, hout, _, cj, hcj, _, _⟩ :=
            scoreChildren_ok fo n n.children cs' j hsc hne
          exact ih (cs'.getD j n)
            (VisitsInv_scored_child fo n cs' j cj hv hcj hout) e hsel'
        · exact Except.noConfusion h
    · exact Except.noConfusion h

theorem select_VisitsInv (g : Game σ) (fo : FloatOps K) (fuel : Nat)
    (n r : Node σ K) (p : List Nat) (h : select g fo fuel n = .ok (r, p))
    (hv : VisitsInv n) : VisitsInv r := by
  obtain ⟨h1, h2, h3⟩ := hv
  obtain ⟨hs1, _, _, _, hs5⟩ := select_scalar g fo fuel n r p h
  refine ⟨by rw [hs1]; exact h1, by rw [hs1, hs5]; exact h2, ?_⟩
  intro q m hq hm
  have hinfo := select_info g fo fuel n r p h q
  rw [hm] at hinfo
  cases hn' : getAt n q with
  | none => rw [hn'] at hinfo; exact Option.noConfusion hinfo
  | some m₀ =>
    rw [hn'] at hinfo
    have he : info m = info m₀ := Option.some.inj hinfo
    have : m.visits = m₀.visits := congrArg (fun x => x.2.1) he
    rw [this]
    exact h3 q m₀ hq hn'

theorem expand_getAt_visits (g : Game σ) :
    ∀ (path : List Nat) (ctr : Nat) (n : Node σ K) (q : List Nat)
      (m' : Node σ K),
      getAt (expand g ctr path n).1 q = some m' → q ≠ [] →
      (∃ m, getAt n q = some m ∧ m'.visits = m.visits) ∨
      (q = (expand g ctr path n).2.1 ∧ m'.visits = 0) := by
  intro path
  induction path with
  | nil =>
    intro ctr n q m' hm hq
    cases n with
    | mk core cs =>
      by_cases hterm : g.terminated core.state = true
      · left
        rw [show (expand g ctr [] (Node.mk core cs)).1 = Node.mk core cs from by
          simp [expand, hterm]] at hm
        exact ⟨m', hm, rfl⟩
      · rw [show (expand g ctr [] (Node.mk core cs)).1 =
            Node.mk { core with actions_taken := core.actions_taken ++
                [(g.random_action ctr core.state core.actions_taken).1] }
              (cs ++ [Node.init (g.random_action ctr core.state
                core.actions_taken).2]) from by simp [expand, hterm]] at hm
        have hepath : (expand g ctr [] (Node.mk core cs)).2.1 = [cs.length] := by
          simp [expand, hterm]
        cases q with
        | nil => exact absurd rfl hq
        | cons i q' =>
          rw [getAt_mk_cons] at hm
          by_cases hi : i < cs.length
          · rw [List.getElem?_append_left hi] at hm
            left
            exact ⟨m', by rw [getAt_mk_cons]; exact hm, rfl⟩
          · rw [List.getElem?_append_right (by omega)] at hm
            by_cases hieq : i = cs.length
            · subst hieq
              simp only [Nat.sub_self] at hm
              rw [show ([Node.init (g.random_action ctr core.state
                  core.actions_taken).2] : List (Node σ K))[0]? =
                some (Node.init (g.random_action ctr core.state
                  core.actions_taken).2) from rfl] at hm
              simp only [Option.some_bind] at hm
              cases q' with
              | nil =>
                right
                obtain rfl := (Option.some.inj hm).symm
                rw [hepath]
                exact ⟨rfl, rfl⟩
              | cons i'' q'' =>
                rw [show (Node.init (g.random_action ctr core.state
                    core.actions_taken).2 : Node σ K) =
                  Node.mk ⟨(g.random_action ctr core.state
                    core.actions_taken).2, 0, 0, 0, []⟩ [] from rfl,
                  getAt_mk_cons] at hm
                simp at hm
            · rw [show ([Node.init (g.random_action ctr core.state
                  core.actions_taken).2] : List (Node σ K))[i - cs.length]? =
                none from by
                  rw [List.getElem?_eq_none]
                  simp only [List.length_singleton]
                  omega] at hm
              simp at hm
  | cons i rest ih =>
    intro ctr n q m' hm hq
    cases n with
    | mk core cs =>
      cases hc : cs[i]? with
      | none =>
        left
        rw [show (expand g ctr (i :: rest) (Node.mk core cs)).1 =
            Node.mk core cs from by simp [expand, hc]] at hm
        exact ⟨m', hm, rfl⟩
      | some c =>
        have hx1 : (expand g ctr (i :: rest) (Node.mk core cs)).1 =
            Node.mk core (modifyIdx (fun _ => (expand g ctr rest c).1) i cs) := by
          simp [expand, hc, Node.setChildren]
        have hx2 : (expand g ctr (i :: rest) (Node.mk core cs)).2.1 =
            i :: (expand g ctr rest c).2.1 := by
          simp [expand, hc]
        rw [hx1] at hm
        cases q with
        | nil => exact absurd rfl hq
        | cons j q' =>
          rw [getAt_mk_cons, getElem?_modifyIdx] at hm
          by_cases hij : i = j
          · rw [if_pos hij] at hm
            subst hij
            rw [hc] at hm
            simp only [Option.map_some', Option.some_bind] at hm
            cases q' with
            | nil =>
              left
              obtain rfl := (Option.some.inj hm).symm
              refine ⟨c, by rw [getAt_mk_cons, hc]; rfl, ?_⟩
              exact (expand_root_scalar g ctr rest c).1
            | cons j'' q'' =>
              rcases ih ctr c (j'' :: q'') m' hm (by simp) with
                ⟨m, hgm, hvm⟩ | ⟨hq2, hv0⟩
              · left
                exact ⟨m, by rw [getAt_mk_cons, hc]; simpa using hgm, hvm⟩
              · right
                rw [hx2, hq2]
                exact ⟨rfl, hv0⟩
          · rw [if_neg hij] at hm
            left
            exact ⟨m', by rw [getAt_mk_cons]; exact hm, rfl⟩

theorem mctsIteration_VisitsInv (g : Game σ) (fo : FloatOps K)
    (sf mf ctr : Nat) (t t' : Node σ K) (ctr' : Nat)
    (h : mctsIteration g fo sf mf ctr t = .ok (t', ctr')) (hv : VisitsInv t) :
    VisitsInv t' := by
  simp only [mctsIteration] at h
  split at h
  · exact Except.noConfusion h
  · rename_i root₁ path hsel
    split at h
    · exact Except.noConfusion h
    · rename_i sim ctr₂ hsim
      obtain ⟨h1, _⟩ := Prod.mk.inj (Except.ok.inj h)
      have hv₁ : VisitsInv root₁ := select_VisitsInv g fo sf t root₁ path hsel hv
      rw [← h1]
      refine ⟨?_, ?_, ?_⟩
      · rw [(backpropogate_root_scalar g sim (expand g ctr path root₁).2.1
          (expand g ctr path root₁).1).1, (expand_root_scalar g ctr path root₁).1]
        have := hv₁.1
        omega
      · intro _
        rw [(backpropogate_root_scalar g sim (expand g ctr path root₁).2.1
          (expand g ctr path root₁).1).1, (expand_root_scalar g ctr path root₁).1]
        have := hv₁.1
        omega
      · intro q m hq hm
        by_cases hp : isPre q (expand g ctr path root₁).2.1 = true
        · obtain ⟨e1, _⟩ := (backpropogate_spec g sim
            (expand g ctr path root₁).2.1 (expand g ctr path root₁).1 q hq).2 hp
          rw [hm] at e1
          cases hm₂ : getAt (expand g ctr path root₁).1 q with
          | none => rw [hm₂] at e1; exact Option.noConfusion e1
          | some m₂ =>
            rw [hm₂] at e1
            simp only [Option.map_some'] at e1
            have hc : m.core = bpCore g sim m₂.core := Option.some.inj e1
            have hvis : m.visits = m₂.visits + 1 := by
              show m.core.visits = m₂.core.visits + 1
              rw [hc]
              rfl
            rcases expand_getAt_visits g path ctr root₁ q m₂ hm₂ hq with
              ⟨m₀, hm₀, hveq⟩ | ⟨_, hv0⟩
            · have := hv₁.2.2 q m₀ hq hm₀
              omega
            · omega
        · have hp' : isPre q (expand g ctr path root₁).2.1 = false := by
            simpa using hp
          have hoff := (backpropogate_spec g sim (expand g ctr path root₁).2.1
            (expand g ctr path root₁).1 q hq).1 hp'
          rw [hoff] at hm
          rcases expand_getAt_visits g path ctr root₁ q m hm hq with
            ⟨m₀, hm₀, hveq⟩ | ⟨hq2, _⟩
          · have := hv₁.2.2 q m₀ hq hm₀
            omega
          · rw [hq2, isPre_refl] at hp'
            exact Bool.noConfusion hp'

theorem simulate_error (g : Game σ) :
    ∀ (mf ctr : Nat) (s : σ) (x : Stuck),
      simulate g mf ctr s = .error x → x = .fuelOut
  | 0, ctr, s, x => by
    intro h
    simp only [simulate] at h
    split at h
    · exact Except.noConfusion h
    · exact (Except.error.inj h).symm
  | mf + 1, ctr, s, x => by
    intro h
    simp only [simulate] at h
    split at h
    · exact Except.noConfusion h
    · exact simulate_error g mf (ctr + 1) _ x h

theorem mctsIteration_no_py (g : Game σ) (fo : FloatOps K)
    (hlog : ∀ x : K, 1 ≤ x → 0 ≤ fo.log x) (sf mf ctr : Nat) (t : Node σ K)
    (hv : VisitsInv t) (e : PyError) :
    mctsIteration g fo sf mf ctr t ≠ .error (.py e) := by
  intro h
  simp only [mctsIteration] at h
  split at h
  · rename_i e' hsel
    have he' : e' = .py e := Except.error.inj h
    rw [he'] at hsel
    exact select_no_py g fo hlog sf t hv e hsel
  · rename_i root₁ path hsel
    split at h
    · rename_i e' hsim
      have he' : e' = .py e := Except.error.inj h
      rw [he'] at hsim
      exact Stuck.noConfusion (simulate_error g mf _ _ _ hsim)
    · exact Except.noConfusion h

theorem searchLoop_VisitsInv (g : Game σ) (fo : FloatOps K)
    (sf mf iterations : Nat) (DEBUG : Bool) :
    ∀ (k ctr : Nat) (t root : Node σ K) (logs logs' : List (DebugRecord K))
      (ctr' : Nat),
      searchLoop g fo sf mf iterations DEBUG k ctr t logs =
        (.ok (root, ctr'), logs') →
      VisitsInv t → VisitsInv root := by
  intro k
  induction k with
  | zero =>
    intro ctr t root logs logs' ctr' h hv
    simp only [searchLoop] at h
    obtain ⟨h1, _⟩ := Prod.mk.inj h
    obtain ⟨h2, _⟩ := Prod.mk.inj (Except.ok.inj h1)
    rw [← h2]
    exact hv
  | succ k ih =>
    intro ctr t root logs logs' ctr' h hv
    simp only [searchLoop] at h
    split at h
    · obtain ⟨h1, _⟩ := Prod.mk.inj h
      exact Except.noConfusion h1
    · rename_i t₂ ctr₂ hit
      exact ih ctr₂ t₂ root _ logs' ctr' h
        (mctsIteration_VisitsInv g fo sf mf ctr t t₂ ctr₂ hit hv)

theorem searchLoop_no_py (g : Game σ) (fo : FloatOps K)
    (hlog : ∀ x : K, 1 ≤ x → 0 ≤ fo.log x)
    (sf mf iterations : Nat) (DEBUG : Bool) :
    ∀ (k ctr : Nat) (t : Node σ K) (logs : List (DebugRecord K)),
      VisitsInv t → ∀ (e : PyError),
      (searchLoop g fo sf mf iterations DEBUG k ctr t logs).1 ≠
        .error (.py e) := by
  intro k
  induction k with
  | zero =>
    intro ctr t logs hv e h
    exact Except.noConfusion h
  | succ k ih =>
    intro ctr t logs hv e h
    simp only [searchLoop] at h
    split at h
    · rename_i e' hit
      have he' : e' = .py e := Except.error.inj h
      rw [he'] at hit
      exact mctsIteration_no_py g fo hlog sf mf ctr t hv e hit
    · rename_i t₂ ctr₂ hit
      exact ih ctr₂ t₂ _
        (mctsIteration_VisitsInv g fo sf mf ctr t t₂ ctr₂ hit hv) e h

/-- C9: provided the math library's log is non-negative on arguments at
least 1 (true of math.log), every child scored during any selection pass
of any loop-reachable tree has visits >= 1 and its parent has visits >= 1
— expressed by the visit-count invariant VisitsInv — so the
division-by-zero and log-of-zero branches of the UCB computation are
unreachable: select never raises a Python arithmetic error on a tree
satisfying the invariant (first conjunct), every tree left by the search
loop satisfies the invariant, because each expanded child is
backpropagated before any later selection can consider it (second
conjunct), and the whole search loop never stops with a Python error
(third conjunct). -/
theorem c9_ucb_never_applied_to_zero_visits (g : Game σ) (fo : FloatOps K)
    (hlog : ∀ x : K, 1 ≤ x → 0 ≤ fo.log x) :
    (∀ (fuel : Nat) (n : Node σ K), VisitsInv n → ∀ (e : PyError),
      select g fo fuel n ≠ .error (.py e)) ∧
    (∀ (sf mf iterations : Nat) (DEBUG : Bool) (s₀ : σ) (root : Node σ K)
      (ctr : Nat) (logs : List (DebugRecord K)),
      searchLoop g fo sf mf iterations DEBUG iterations 0 (Node.init s₀) [] =
        (.ok (root, ctr), logs) →
      VisitsInv root) ∧
    (∀ (sf mf iterations : Nat) (DEBUG : Bool) (s₀ : σ) (e : PyError),
      (searchLoop g fo sf mf iterations DEBUG iterations 0
        (Node.init s₀) []).1 ≠ .error (.py e)) := by
  refine ⟨select_no_py g fo hlog, ?_, ?_⟩
  · intro sf mf iterations DEBUG s₀ root ctr logs h
    exact searchLoop_VisitsInv g fo sf mf iterations DEBUG iterations 0
      (Node.init s₀) root [] logs ctr h (VisitsInv_init s₀)
  · intro sf mf iterations DEBUG s₀ e
    exact searchLoop_no_py g fo hlog sf mf iterations DEBUG iterations 0
      (Node.init s₀) [] (VisitsInv_init s₀) e

/-- C9 witness: the no-arithmetic-fault statement evaluated on the
concrete witness game, whose rational float operations have a log that is
zero everywhere (hence non-negative on arguments at least 1). -/
theorem c9_witness :
    select wGame qZeroOps 2 (Node.init 5 : Node Nat ℚ) ≠
      .error (.py .zeroDivisionError) ∧
    VisitsInv wRoot2 ∧
    (searchLoop wGame qZeroOps 3 3 2 false 2 0 (Node.init 0) []).1 ≠
      .error (.py .valueError) := by
  obtain ⟨h1, h2, h3⟩ :=
    c9_ucb_never_applied_to_zero_visits wGame qZeroOps fun x _ => le_refl 0
  exact ⟨h1 2 (Node.init 5) (VisitsInv_init 5) .zeroDivisionError,
    h2 3 3 2 false 0 wRoot2 4 [] rfl, h3 3 3 2 false 0 .valueError⟩

end MCTSVerify
